import Mathlib

/-!
Verification development for the RTNW-Rust path tracer.

Scalars: the source uses `f64`. We model `f64` values by arbitrary-precision
rationals `ℚ`; all concrete inputs used in theorems below are dyadic rationals
small enough that every `f64` operation the source would perform on them is
exact, so the rational trace coincides with the floating-point trace. The two
places where genuine IEEE special values matter are modelled explicitly:
the slab test of `AABB::hit` divides by ray-direction components (± infinity
and NaN propagation), and `axis_range` in `BVH::new` overflows
`f64::MAX - f64::MIN` to + infinity. For those we use the extended type `FQ`
below, whose arithmetic follows IEEE-754 on the needed operations (a rational
result of magnitude above `f64::MAX` is taken to overflow to infinity; the
sub-ulp rounding band next to `f64::MAX` is not modelled and is not exercised
by any input in this file). The source constant `INFINITY` (src/common.rs) is
`f64::MAX`, a finite number, and is modelled as such.

Transcendental functions (`sin`, `cos` in `Rotation::new`, `acos`/`atan2` in
`Sphere::get_sphere_uv`) have no rational embedding; the model takes their
results as explicit parameters. `f64::sqrt` is modelled by `ratSqrt`, exact on
perfect squares; every discriminant appearing in a concrete input below is a
perfect square, where `f64::sqrt` is also exact.
-/

unseal Rat.add Rat.mul Rat.sub Rat.inv

set_option maxRecDepth 8000

namespace RTNW

/-- Largest finite `f64` value, `(2^53 - 1) * 2^971`, written as an integer
literal so that the kernel can evaluate comparisons against it (the theorem
`FMAX_eq` below checks the literal). -/
def FMAX : ℚ := 179769313486231570814527423731704356798070567525844996598917476803157260780028538760589558632766878171540458953514382464234321326889464182768467546703537516986049910576551282076245490090389328944075868508455133942304583236903222948165808559332123348274797826204144723168738177180919299881250404026184124858368

/-- Smallest finite `f64` value (`f64::MIN = -f64::MAX`). -/
def FMIN : ℚ := -FMAX

/-- Model of `common::INFINITY`, which the source defines as `f64::MAX`. -/
def INFINITY : ℚ := FMAX

/-- Extended `f64` value: finite rational, the two infinities, or NaN.
Used where the source's floating-point arithmetic can leave the finite
range (the AABB slab test and `axis_range`). -/
inductive FQ where
  | nan : FQ
  | minf : FQ
  | fin : ℚ → FQ
  | pinf : FQ
deriving DecidableEq

/-- Overflow-aware injection of an exact rational result into `FQ`:
magnitudes beyond `f64::MAX` become the corresponding infinity. -/
def FQ.ofQ (q : ℚ) : FQ :=
  if FMAX < q then .pinf else if q < FMIN then .minf else .fin q

/-- IEEE `<` on extended values (false whenever NaN is involved). -/
def FQ.ltb : FQ → FQ → Bool
  | .nan, _ => false
  | _, .nan => false
  | .minf, .minf => false
  | .minf, _ => true
  | .fin _, .minf => false
  | .fin a, .fin b => a < b
  | .fin _, .pinf => true
  | .pinf, _ => false

/-- IEEE `<=` on extended values (false whenever NaN is involved). -/
def FQ.leb : FQ → FQ → Bool
  | .nan, _ => false
  | _, .nan => false
  | .minf, _ => true
  | .fin _, .minf => false
  | .fin a, .fin b => a ≤ b
  | .fin _, .pinf => true
  | .pinf, .pinf => true
  | .pinf, _ => false

/-- Model of Rust `f64::max`: if one argument is NaN the other is returned. -/
def FQ.fmax : FQ → FQ → FQ
  | .nan, b => b
  | a, .nan => a
  | a, b => if FQ.ltb a b then b else a

/-- Model of Rust `f64::min`: if one argument is NaN the other is returned. -/
def FQ.fmin : FQ → FQ → FQ
  | .nan, b => b
  | a, .nan => a
  | a, b => if FQ.ltb b a then b else a

/-- Multiplication of a finite rational by an extended value, following IEEE:
`0 * ±inf = NaN`, sign rules otherwise, overflow to infinity. -/
def FQ.mulQ (q : ℚ) : FQ → FQ
  | .fin r => FQ.ofQ (q * r)
  | .pinf => if 0 < q then .pinf else if q < 0 then .minf else .nan
  | .minf => if 0 < q then .minf else if q < 0 then .pinf else .nan
  | .nan => .nan

/-- Reciprocal `1.0 / d` as computed by the source on a rational direction
component: division by (positive) zero gives `+inf`; a finite quotient of
magnitude beyond the `f64` range overflows to infinity. -/
def FQ.inv (d : ℚ) : FQ :=
  if d = 0 then .pinf else FQ.ofQ (1 / d)

/-- Truth of NaN-ness, used in proofs. -/
def FQ.isNan : FQ → Bool
  | .nan => true
  | _ => false

/-- Model of `vec3::Vec3` (also used as `Point3` and `Color`). -/
structure Vec3 where
  x : ℚ
  y : ℚ
  z : ℚ
deriving DecidableEq

/-- The zero vector, i.e. `Vec3::default()` / `Color::default()` (black). -/
def Vec3.zero : Vec3 := ⟨0, 0, 0⟩

/-- Component-wise addition (`impl Add for Vec3`). -/
def Vec3.add (a b : Vec3) : Vec3 := ⟨a.x + b.x, a.y + b.y, a.z + b.z⟩

/-- Component-wise subtraction (`impl Sub for Vec3`). -/
def Vec3.sub (a b : Vec3) : Vec3 := ⟨a.x - b.x, a.y - b.y, a.z - b.z⟩

/-- Component-wise negation (`impl Neg for Vec3`). -/
def Vec3.negV (a : Vec3) : Vec3 := ⟨-a.x, -a.y, -a.z⟩

/-- Component-wise product, the source's `impl Mul for Vec3` (used for color
attenuation). -/
def Vec3.mulV (a b : Vec3) : Vec3 := ⟨a.x * b.x, a.y * b.y, a.z * b.z⟩

instance : Add Vec3 := ⟨Vec3.add⟩

instance : Sub Vec3 := ⟨Vec3.sub⟩

instance : Neg Vec3 := ⟨Vec3.negV⟩

instance : Mul Vec3 := ⟨Vec3.mulV⟩

/-- Scalar multiplication `Vec3 * f64` (and `f64 * Vec3`). -/
def Vec3.scale (k : ℚ) (v : Vec3) : Vec3 := ⟨v.x * k, v.y * k, v.z * k⟩

/-- Division `Vec3 / f64`. -/
def Vec3.divQ (v : Vec3) (k : ℚ) : Vec3 := ⟨v.x / k, v.y / k, v.z / k⟩

/-- Model of `Vec3::dot_product`. -/
def Vec3.dot (a b : Vec3) : ℚ := a.x * b.x + a.y * b.y + a.z * b.z

/-- Model of `Vec3::square_magnitude`. -/
def Vec3.squareMagnitude (v : Vec3) : ℚ := v.x * v.x + v.y * v.y + v.z * v.z

/-- Model of `Vec3::as_array`/`Vec3::axis` component access (axes 0,1,2;
the source panics on any other index, which the loop bounds prevent). -/
def Vec3.axisGet (v : Vec3) (axis : ℕ) : ℚ :=
  match axis with
  | 0 => v.x
  | 1 => v.y
  | _ => v.z

/-- Model of `Vec3::set_axis`. -/
def Vec3.axisSet (v : Vec3) (axis : ℕ) (value : ℚ) : Vec3 :=
  match axis with
  | 0 => { v with x := value }
  | 1 => { v with y := value }
  | _ => { v with z := value }

/-- Model of `interval::Interval`. -/
structure Interval where
  min : ℚ
  max : ℚ
deriving DecidableEq

/-- Model of `Interval::surround` (strict containment). -/
def Interval.surround (i : Interval) (n : ℚ) : Prop := i.min < n ∧ n < i.max

instance (i : Interval) (n : ℚ) : Decidable (i.surround n) := by
  unfold Interval.surround; infer_instance

/-- Model of `Interval::contains` (non-strict containment). -/
def Interval.contains (i : Interval) (n : ℚ) : Prop := i.min ≤ n ∧ n ≤ i.max

instance (i : Interval) (n : ℚ) : Decidable (i.contains n) := by
  unfold Interval.contains; infer_instance

/-- Model of `rays::Ray`. -/
structure Ray where
  origin : Vec3
  direction : Vec3
  tm : ℚ
deriving DecidableEq

/-- Model of `Ray::at`: `origin + direction * t`. -/
def Ray.at (r : Ray) (t : ℚ) : Vec3 := r.origin + Vec3.scale t r.direction

/-- Model of `aabb::AABB`: three axis intervals. -/
structure AABB where
  x : Interval
  y : Interval
  z : Interval
deriving DecidableEq

/-- Model of `AABB::min`. -/
def AABB.minP (b : AABB) : Vec3 := ⟨b.x.min, b.y.min, b.z.min⟩

/-- Model of `AABB::max`. -/
def AABB.maxP (b : AABB) : Vec3 := ⟨b.x.max, b.y.max, b.z.max⟩

/-- Model of `AABB::from_points` (per-axis corner reordering). -/
def AABB.fromPoints (a b : Vec3) : AABB :=
  { x := if a.x ≤ b.x then ⟨a.x, b.x⟩ else ⟨b.x, a.x⟩
    y := if a.y ≤ b.y then ⟨a.y, b.y⟩ else ⟨b.y, a.y⟩
    z := if a.z ≤ b.z then ⟨a.z, b.z⟩ else ⟨b.z, a.z⟩ }

/-- One iteration of the slab loop of `AABB::hit` for a single axis, updating
the running `(t_min, t_max)` pair. `o`/`d` are the ray origin/direction
components on this axis. -/
def slabStep (o d : ℚ) (axis : Interval) (tmin tmax : FQ) : FQ × FQ :=
  let inv := FQ.inv d
  let t0 := FQ.mulQ (axis.min - o) inv
  let t1 := FQ.mulQ (axis.max - o) inv
  let p := if FQ.ltb inv (.fin 0) then (t1, t0) else (t0, t1)
  (FQ.fmax tmin p.1, FQ.fmin tmax p.2)

/-- The slab loop of `AABB::hit` over a list of per-axis data
`(origin component, direction component, axis interval)`, with the source's
early exit `if t_max <= t_min { return false }`. -/
def slabGo : List (ℚ × ℚ × Interval) → FQ → FQ → Bool
  | [], _, _ => true
  | (o, d, ax) :: rest, tmin, tmax =>
    let s := slabStep o d ax tmin tmax
    if FQ.leb s.2 s.1 then false else slabGo rest s.1 s.2

/-- Model of `AABB::hit`: the three-axis slab test against the query
interval. -/
def AABB.hit (b : AABB) (r : Ray) (ti : Interval) : Bool :=
  slabGo [(r.origin.x, r.direction.x, b.x),
          (r.origin.y, r.direction.y, b.y),
          (r.origin.z, r.direction.z, b.z)] (.fin ti.min) (.fin ti.max)

/-- Model of `aabb::surrounding_box`. -/
def surroundingBox (box0 box1 : AABB) : AABB :=
  AABB.fromPoints
    ⟨min box0.x.min box1.x.min, min box0.y.min box1.y.min, min box0.z.min box1.z.min⟩
    ⟨max box0.x.max box1.x.max, max box0.y.max box1.y.max, max box0.z.max box1.z.max⟩

/-- Model of `hittable::HitRecord`. Materials are trait objects in the source
(`Arc<dyn Material>`); the model leaves their payload abstract as a type
parameter `M`, and the functions a material provides (`scatter`, `emmited`)
are supplied separately where needed (dynamic dispatch made explicit).
`mat` is `Option` as in the source (`Default` leaves it `None`). -/
structure HitRecord (M : Type) where
  p : Vec3
  normal : Vec3
  t : ℚ
  front_face : Bool
  mat : Option M
  u : ℚ
  v : ℚ
deriving DecidableEq

/-- Model of `HitRecord::default()` (all-zero fields, no material). -/
def HitRecord.defaultRec (M : Type) : HitRecord M :=
  { p := Vec3.zero, normal := Vec3.zero, t := 0, front_face := false,
    mat := none, u := 0, v := 0 }

/-- Model of `HitRecord::set_face_normal`: orients `outward_normal` against
the incident ray and records the side in `front_face`. -/
def HitRecord.setFaceNormal (rec : HitRecord M) (ray : Ray)
    (outward : Vec3) : HitRecord M :=
  { rec with
    front_face := decide (ray.direction.dot outward < 0)
    normal := if ray.direction.dot outward < 0 then outward else -outward }

/-- A `Box<dyn Hittable>`: the two capabilities of the `Hittable` trait,
with the hit test and the (time-dependent, optional) bounding box. -/
structure HitP (M : Type) where
  hitF : Ray → Interval → Option (HitRecord M)
  bboxF : Interval → Option AABB

/-- Accumulator loop of `HittableList::hit`: scan the objects, keeping the
closest hit by shrinking the upper bound of the search interval. -/
def listHitGo (r : Ray) (tmin : ℚ) :
    List (HitP M) → Option (HitRecord M) → ℚ → Option (HitRecord M)
  | [], temp, _ => temp
  | o :: rest, temp, closest =>
    match o.hitF r ⟨tmin, closest⟩ with
    | some rec => listHitGo r tmin rest (some rec) rec.t
    | none => listHitGo r tmin rest temp closest

/-- Model of `HittableList::hit` (the flat linear-scan aggregate). -/
def HittableList.hit (objects : List (HitP M)) (ray : Ray)
    (ti : Interval) : Option (HitRecord M) :=
  listHitGo ray ti.min objects none ti.max

/-- Kernel-evaluable floor square root on naturals (downward linear scan;
only ever evaluated on small concrete inputs). -/
def natSqrtGo (n : ℕ) : ℕ → ℕ
  | 0 => 0
  | k + 1 => if (k + 1) * (k + 1) ≤ n then k + 1 else natSqrtGo n k

/-- Floor square root of a natural number. -/
def natSqrtL (n : ℕ) : ℕ := natSqrtGo n n

/-- Rational model of `f64::sqrt`, exact on perfect squares (numerator and
denominator both squares); every concrete discriminant in this file is a
perfect square, where the floating-point square root is exact as well. -/
def ratSqrt (q : ℚ) : ℚ := (natSqrtL q.num.toNat : ℚ) / (natSqrtL q.den : ℚ)

/-- Model of `sphere::Sphere`: a ray-like center path, radius, material and
cached bounding box. -/
structure Sphere (M : Type) where
  center : Ray
  radius : ℚ
  material : M
  bbox : AABB

/-- Model of `Sphere::new` (stationary when `second_center` is `None`,
moving otherwise; bbox from the endpoint boxes expanded by the radius). -/
def Sphere.new (firstCenter : Vec3) (secondCenter : Option Vec3)
    (radius : ℚ) (material : M) : Sphere M :=
  let rvec : Vec3 := ⟨radius, radius, radius⟩
  match secondCenter with
  | some nextCenter =>
    { center := ⟨firstCenter, nextCenter - firstCenter, 0⟩
      radius := radius
      material := material
      bbox := surroundingBox
        (AABB.fromPoints (firstCenter - rvec) (firstCenter + rvec))
        (AABB.fromPoints (nextCenter - rvec) (nextCenter + rvec)) }
  | none =>
    { center := ⟨firstCenter, Vec3.zero, 0⟩
      radius := radius
      material := material
      bbox := AABB.fromPoints (firstCenter - rvec) (firstCenter + rvec) }

/-- Quadratic coefficient `a = D·D` of `Sphere::hit`. -/
def Sphere.aCoef (ray : Ray) : ℚ := ray.direction.dot ray.direction

/-- Half-b coefficient `h = (O - C)·D` of `Sphere::hit`. -/
def Sphere.hCoef (s : Sphere M) (ray : Ray) : ℚ :=
  (ray.origin - s.center.at ray.tm).dot ray.direction

/-- Constant coefficient `c = |O - C|² - r²` of `Sphere::hit`. -/
def Sphere.cCoef (s : Sphere M) (ray : Ray) : ℚ :=
  (ray.origin - s.center.at ray.tm).squareMagnitude - s.radius * s.radius

/-- Discriminant `h² - a c` of `Sphere::hit`. -/
def Sphere.discriminant (s : Sphere M) (ray : Ray) : ℚ :=
  Sphere.hCoef s ray * Sphere.hCoef s ray - Sphere.aCoef ray * Sphere.cCoef s ray

/-- The root the source computes: `(-h - sqrt(disc)) / a`, the smaller root
of the quadratic (for `a > 0`). -/
def Sphere.smallerRoot (s : Sphere M) (ray : Ray) : ℚ :=
  (-Sphere.hCoef s ray - ratSqrt (Sphere.discriminant s ray)) / Sphere.aCoef ray

/-- The larger root `(-h + sqrt(disc)) / a` of the same quadratic. The source
never computes it; it is defined here only to state claim C6. -/
def Sphere.largerRoot (s : Sphere M) (ray : Ray) : ℚ :=
  (-Sphere.hCoef s ray + ratSqrt (Sphere.discriminant s ray)) / Sphere.aCoef ray

/-- Model of `Sphere::hit`. The texture coordinates come from
`get_sphere_uv`, which uses `acos`/`atan2`; those transcendental functions
have no rational embedding, so the uv map is a parameter `uv` of the model
(the claims below never depend on its values). `front_face` keeps its
`Default` value because the source never calls `set_face_normal` here. -/
def Sphere.hit (s : Sphere M) (uv : Vec3 → ℚ × ℚ) (ray : Ray)
    (ti : Interval) : Option (HitRecord M) :=
  let currentCenter := s.center.at ray.tm
  if Sphere.discriminant s ray < 0 then none
  else
    let root := Sphere.smallerRoot s ray
    if ¬ ti.surround root then none
    else
      let pt := ray.at root
      let n := (pt - currentCenter).divQ s.radius
      some { p := pt, normal := n, t := root, front_face := false,
             mat := some s.material, u := (uv n).1, v := (uv n).2 }

/-- The `Hittable` implementation of `Sphere` as an abstract primitive. -/
def Sphere.toPrim (s : Sphere M) (uv : Vec3 → ℚ × ℚ) : HitP M :=
  { hitF := Sphere.hit s uv, bboxF := fun _ => some s.bbox }

/-- Model of `material::Metal` (albedo color and fuzz factor). -/
structure Metal where
  albedo : Vec3
  fuzz : ℚ
deriving DecidableEq

/-- Model of `Metal::new`: `fuzz: if fuzz < 1.0 { fuzz } else { 1.0 }`. -/
def Metal.new (color : Vec3) (fuzz : ℚ) : Metal :=
  { albedo := color, fuzz := if fuzz < 1 then fuzz else 1 }

/-- Model of `Translate::hit`: delegate on the offset ray, then shift the
collision point back by the offset. -/
def Translate.hit (object : HitP M) (offset : Vec3) (ray : Ray)
    (ti : Interval) : Option (HitRecord M) :=
  let offsetRay : Ray := ⟨ray.origin - offset, ray.direction, ray.tm⟩
  match object.hitF offsetRay ti with
  | some rec => some { rec with p := rec.p + offset }
  | none => none

/-- Modelled from the spec: `AABB::set_max` is called by
`Translate::bounding_box` (src/translate.rs line 30) but its definition is
not among the sources under src/. Per the spec (§4.3 "Bounding box =
wrapped bbox translated by offset" and §3 "immutable thereafter except
explicit padding/translation updates"), the call applies the translation
update, shifting every axis interval of the box by the corresponding
offset component. -/
def AABB.setMaxOffset (b : AABB) (offset : Vec3) : AABB :=
  { x := ⟨b.x.min + offset.x, b.x.max + offset.x⟩
    y := ⟨b.y.min + offset.y, b.y.max + offset.y⟩
    z := ⟨b.z.min + offset.z, b.z.max + offset.z⟩ }

/-- Model of `Translate::bounding_box`:
`self.object.bounding_box(ti).map(|mut b| { b.set_max(self.offset); b })`. -/
def Translate.boundingBox (object : HitP M) (offset : Vec3)
    (ti : Interval) : Option AABB :=
  (object.bboxF ti).map (fun b => AABB.setMaxOffset b offset)

/-- Model of `rotation::AxisRotation`. -/
inductive AxisRotation where
  | Xaxis : AxisRotation
  | Yaxis : AxisRotation
  | Zaxis : AxisRotation

/-- Model of `rotation::axis_index`. -/
def axisIndex : AxisRotation → ℕ × ℕ × ℕ
  | .Xaxis => (0, 1, 2)
  | .Yaxis => (1, 2, 0)
  | .Zaxis => (2, 0, 1)

/-- One iteration of the corner loop in `Rotation::new`, for corner
selectors `(i, j, k)`, updating the running `(min_point, max_point)`. -/
def rotCornerStep (bb : AABB) (rAxis aAxis bAxis : ℕ) (sinT cosT : ℚ)
    (mp : Vec3 × Vec3) (ijk : ℚ × ℚ × ℚ) : Vec3 × Vec3 :=
  let i := ijk.1
  let j := ijk.2.1
  let k := ijk.2.2
  let r := k * bb.maxP.axisGet rAxis + (1 - k) * bb.minP.axisGet rAxis
  let a := i * bb.maxP.axisGet aAxis + (1 - i) * bb.minP.axisGet aAxis
  let b := j * bb.maxP.axisGet bAxis + (1 - j) * bb.minP.axisGet bAxis
  let newA := cosT * a - sinT * b
  let newB := sinT * a + cosT * b
  let minPoint := mp.1
  let maxPoint := mp.2
  let minPoint := if newA < minPoint.axisGet aAxis then
    minPoint.axisSet aAxis newA else minPoint
  let minPoint := if newB < minPoint.axisGet bAxis then
    minPoint.axisSet bAxis newB else minPoint
  let minPoint := if r < minPoint.axisGet rAxis then
    minPoint.axisSet rAxis r else minPoint
  let maxPoint := if maxPoint.axisGet aAxis < newA then
    maxPoint.axisSet aAxis newA else maxPoint
  let maxPoint := if maxPoint.axisGet bAxis < newB then
    maxPoint.axisSet bAxis newB else maxPoint
  let maxPoint := if maxPoint.axisGet rAxis < r then
    maxPoint.axisSet rAxis r else maxPoint
  (minPoint, maxPoint)

/-- The eight `(i, j, k)` corner selectors in the loop order of the source
(`for i { for j { for k } }` over `0..2`). -/
def rotCorners : List (ℚ × ℚ × ℚ) :=
  [(0, 0, 0), (0, 0, 1), (0, 1, 0), (0, 1, 1),
   (1, 0, 0), (1, 0, 1), (1, 1, 0), (1, 1, 1)]

/-- Model of the bounding-box computation of `Rotation::new` on a wrapped
object whose bounding box is `bb`. The angle enters only through its sine
and cosine, which the source obtains from `f64::sin`/`f64::cos`; being
transcendental, they are parameters of the model. The accumulators start,
as in the source, at `max_point = (INFINITY, INFINITY, INFINITY)` and
`min_point = (-INFINITY, -INFINITY, -INFINITY)`. -/
def Rotation.newBBox (bb : AABB) (axisRotation : AxisRotation)
    (sinT cosT : ℚ) : AABB :=
  let idx := axisIndex axisRotation
  let rAxis := idx.1
  let aAxis := idx.2.1
  let bAxis := idx.2.2
  let start : Vec3 × Vec3 :=
    (⟨-INFINITY, -INFINITY, -INFINITY⟩, ⟨INFINITY, INFINITY, INFINITY⟩)
  let mp := rotCorners.foldl (rotCornerStep bb rAxis aAxis bAxis sinT cosT) start
  AABB.fromPoints mp.1 mp.2

/-- Stable insertion of `x` into a list, placing it before the first element
`y` with `¬ lt y x`. This is the behavior of Rust's `sort_unstable_by` on the
small slices this repository sorts (the standard library falls back to
insertion sort below its pdqsort threshold, which shifts an element left
exactly while the comparator says `Less`). -/
def ordInsert (lt : α → α → Bool) (x : α) : List α → List α
  | [] => [x]
  | y :: ys => if lt y x then y :: ordInsert lt x ys else x :: y :: ys

/-- Insertion sort built from `ordInsert`; models `sort_unstable_by` with a
comparator returning `Less` exactly when `lt` holds. -/
def insSort (lt : α → α → Bool) : List α → List α
  | [] => []
  | x :: xs => ordInsert lt x (insSort lt xs)

/-- Model of the inner `axis_range` of `BVH::new`: fold the primitives'
bounding-box bounds starting from the accumulator `(f64::MIN, f64::MAX)` as
written in the source, then return `max - min` as the `f64` subtraction
(which overflows to `+inf` whenever the accumulators keep their initial
values, since `f64::MAX - f64::MIN` exceeds the finite range). -/
def axisRange (hittable : List (HitP M)) (timeInterval : Interval)
    (axis : ℕ) : FQ :=
  let mm := hittable.foldl
    (fun (acc : ℚ × ℚ) hitp =>
      match hitp.bboxF timeInterval with
      | some aabb =>
        (min acc.1 (aabb.minP.axisGet axis), max acc.2 (aabb.maxP.axisGet axis))
      | none => acc)
    (FMIN, FMAX)
  FQ.ofQ (mm.2 - mm.1)

/-- The split-axis choice of `BVH::new`: compute the three axis ranges, sort
the `(axis, range)` pairs in descending range order, take the first axis. -/
def bvhAxis (hittable : List (HitP M)) (timeInterval : Interval) : ℕ :=
  let axisRanges : List (ℕ × FQ) :=
    [(0, axisRange hittable timeInterval 0),
     (1, axisRange hittable timeInterval 1),
     (2, axisRange hittable timeInterval 2)]
  ((insSort (fun a b => FQ.ltb b.2 a.2) axisRanges).headD (0, .nan)).1

/-- The sort key of `box_compare` in `BVH::new`: bbox `min + max` along the
chosen axis. The `None`-bbox branch panics in the source; `BVH.new` below
returns `none` for such inputs, so the `0` default here is never relevant. -/
def boxCompareKey (timeInterval : Interval) (axis : ℕ) (p : HitP M) : ℚ :=
  match p.bboxF timeInterval with
  | some bb => bb.minP.axisGet axis + bb.maxP.axisGet axis
  | none => 0

/-- Model of `bvh::BVHNode`/`BVH`: a binary tree whose leaves hold one
primitive, every node carrying its cached bounding box. -/
inductive BVHTree (M : Type) where
  | leaf : HitP M → AABB → BVHTree M
  | branch : BVHTree M → BVHTree M → AABB → BVHTree M

/-- The cached bounding box of a node (`BVH::bounding_box`). -/
def BVHTree.bbox : BVHTree M → AABB
  | .leaf _ bb => bb
  | .branch _ _ bb => bb

/-- The primitives at the leaves of a tree, left to right. -/
def BVHTree.leaves : BVHTree M → List (HitP M)
  | .leaf p _ => [p]
  | .branch l r _ => l.leaves ++ r.leaves

/-- Recursive worker of `BVH::new`, structurally recursive on a fuel that
`BVH.new` seeds with the list length (each recursive call halves the list,
so the fuel never runs out; fuel exhaustion returns `none` like the other
fatal-construction cases). A `none` result models the source's panics:
empty input, or a primitive without a bounding box (which `box_compare` or
the leaf case would `unwrap`/`panic` on). -/
def bvhNewGo (timeInterval : Interval) : ℕ → List (HitP M) → Option (BVHTree M)
  | 0, _ => none
  | fuel + 1, hittable =>
    let axis := bvhAxis hittable timeInterval
    let sorted := insSort
      (fun a b => boxCompareKey timeInterval axis a < boxCompareKey timeInterval axis b)
      hittable
    match sorted with
    | [] => none
    | [leafP] => (leafP.bboxF timeInterval).map (fun bb => BVHTree.leaf leafP bb)
    | _ :: _ :: _ =>
      if sorted.all (fun p => (p.bboxF timeInterval).isSome) then
        let n := sorted.length
        let rightL := sorted.drop (n / 2)
        let leftL := sorted.take (n / 2)
        match bvhNewGo timeInterval fuel leftL, bvhNewGo timeInterval fuel rightL with
        | some lt, some rt =>
          some (BVHTree.branch lt rt (surroundingBox lt.bbox rt.bbox))
        | _, _ => none
      else none

/-- Model of `BVH::new`. -/
def BVH.new (hittable : List (HitP M)) (timeInterval : Interval) :
    Option (BVHTree M) :=
  bvhNewGo timeInterval hittable.length hittable

/-- Model of `BVH::hit`: prune by the cached bbox; at a branch, test the
left child first and, when it hit, tighten the right child's interval upper
bound to that hit's `t`; return the hit with the smaller `t`. -/
def BVH.hit : BVHTree M → Ray → Interval → Option (HitRecord M)
  | t, ray, timeInterval =>
    if t.bbox.hit ray timeInterval then
      match t with
      | .leaf leafP _ => leafP.hitF ray timeInterval
      | .branch left right _ =>
        let leftHit := BVH.hit left ray timeInterval
        let rightHit :=
          match leftHit with
          | some lrec => BVH.hit right ray ⟨timeInterval.min, lrec.t⟩
          | none => BVH.hit right ray timeInterval
        match leftHit, rightHit with
        | some lh, some rh => if lh.t < rh.t then some lh else some rh
        | some lh, none => some lh
        | none, h => h
    else none

/-- Model of `material::ScatterRecord`. -/
structure ScatterRecord where
  attenuation : Vec3
  scattered : Ray

/-- The interval `[0.001, INFINITY]` that `Camera::ray_color` intersects
against (the shadow-acne lower bound; recall `INFINITY = f64::MAX`). -/
def shadowAcneInterval : Interval := ⟨1 / 1000, INFINITY⟩

/-- Model of `Camera::ray_color`. The scene is the abstract hit function
`world`; material dynamic dispatch is made explicit by `scatterF`/`emitF`
(the material's `scatter` is stochastic in the source, so `scatterF` stands
for one realized outcome of it). The source `unwrap`s the record's
material; a record without one would panic, modelled as black (no reachable
record lacks a material). `depth` is the source's `i32`. -/
def rayColor (background : Vec3)
    (world : Ray → Interval → Option (HitRecord M))
    (scatterF : M → Ray → HitRecord M → Option ScatterRecord)
    (emitF : M → Vec3 → ℚ → ℚ → Vec3) (ray : Ray) (depth : ℤ) : Vec3 :=
  if depth ≤ 0 then Vec3.zero
  else
    match world ray shadowAcneInterval with
    | some rec =>
      match rec.mat with
      | some m =>
        let colorFromEmission := emitF m rec.p rec.u rec.v
        match scatterF m ray rec with
        | some scatterRec =>
          colorFromEmission + scatterRec.attenuation *
            rayColor background world scatterF emitF scatterRec.scattered (depth - 1)
        | none => colorFromEmission
      | none => Vec3.zero
    | none => background
termination_by depth.toNat
decreasing_by omega

/-- Modelled from the claim's words (C4): the per-axis extent the spec says
`BVH::new` maximizes — the maximum over primitives of the bbox upper bound
minus the minimum over primitives of the bbox lower bound on that axis.
Defined only to compare against the source's `axis_range`. -/
def specAxisExtent (l : List (HitP M)) (ti : Interval) (axis : ℕ) : ℚ :=
  let maxs := l.filterMap (fun p => (p.bboxF ti).map (fun bb => bb.maxP.axisGet axis))
  let mins := l.filterMap (fun p => (p.bboxF ti).map (fun bb => bb.minP.axisGet axis))
  maxs.foldl max FMIN - mins.foldl min FMAX

/-- Interval membership with per-endpoint strictness flags. With both flags
`true` it is `Interval::surround` (used by `Sphere::hit`); with both `false`
it is `Interval::contains` (used by `Quad::hit`). -/
def memT (lo hi : Bool) (ti : Interval) (t : ℚ) : Prop :=
  (if lo then ti.min < t else ti.min ≤ t) ∧ (if hi then t < ti.max else t ≤ ti.max)

instance (lo hi : Bool) (ti : Interval) (t : ℚ) : Decidable (memT lo hi ti t) := by
  unfold memT; infer_instance

/-- A primitive hits the interval `ti` (for the fixed ray described by the
data functions `fhits`, `flo`, `fhi`, `frec`). -/
def HitsAt (fhits flo fhi : HitP M → Bool) (frec : HitP M → HitRecord M)
    (ti : Interval) (p : HitP M) : Prop :=
  fhits p = true ∧ memT (flo p) (fhi p) ti (frec p).t

/-- The hit function of `p`, on the ray `r`, returns the fixed record
`frec p` exactly when `frec p`.t lies in the queried interval (with the
per-primitive strictness flags), and `none` otherwise. The repository's
primitives have this shape: their records depend on the ray only, and the
interval is used solely for the root test (`surround` for `Sphere`,
`contains` for `Quad`). -/
def CharOK (r : Ray) (fhits flo fhi : HitP M → Bool)
    (frec : HitP M → HitRecord M) (p : HitP M) : Prop :=
  ∀ I : Interval,
    p.hitF r I =
      if fhits p = true ∧ memT (flo p) (fhi p) I (frec p).t
      then some (frec p) else none

/-- The primitive's bounding box (as reported for the build interval `bti`)
passes the slab test on every interval the primitive hits: hits are never
pruned away by the box. -/
def SoundOK (r : Ray) (fhits flo fhi : HitP M → Bool)
    (frec : HitP M → HitRecord M) (bti : Interval) (p : HitP M) : Prop :=
  ∀ bb, p.bboxF bti = some bb →
    ∀ I : Interval, HitsAt fhits flo fhi frec I p → AABB.hit bb r I = true

/-- Box `b1` lies inside box `b2`, axis by axis. -/
def boxInside (b1 b2 : AABB) : Prop :=
  (b2.x.min ≤ b1.x.min ∧ b1.x.max ≤ b2.x.max) ∧
  (b2.y.min ≤ b1.y.min ∧ b1.y.max ≤ b2.y.max) ∧
  (b2.z.min ≤ b1.z.min ∧ b1.z.max ≤ b2.z.max)

/-- Well-formed output of `BVH::new` for the build interval `bti`: leaves
carry their primitive's own bounding box, branches carry the
`surrounding_box` of their children's boxes. -/
inductive BuiltB (bti : Interval) : BVHTree M → Prop where
  | leaf : ∀ (p : HitP M) (bb : AABB), p.bboxF bti = some bb →
      BuiltB bti (.leaf p bb)
  | branch : ∀ (l r : BVHTree M), BuiltB bti l → BuiltB bti r →
      BuiltB bti (.branch l r (surroundingBox l.bbox r.bbox))

/-- Order embedding of non-NaN extended values into `ℚ` with `⊥`/`⊤`
adjoined, used to reason about the slab test (NaN is mapped to `⊥`; every
lemma using `toE` assumes or establishes NaN-freeness). -/
def FQ.toE : FQ → WithBot (WithTop ℚ)
  | .nan => ⊥
  | .minf => ⊥
  | .fin q => ((q : WithTop ℚ) : WithBot (WithTop ℚ))
  | .pinf => ((⊤ : WithTop ℚ) : WithBot (WithTop ℚ))

/-- NaN elimination for the lower slab bound: inside `fmax`, NaN behaves
like `-inf` (both are ignored). -/
def FQ.deLo : FQ → FQ
  | .nan => .minf
  | x => x

/-- NaN elimination for the upper slab bound: inside `fmin`, NaN behaves
like `+inf` (both are ignored). -/
def FQ.deHi : FQ → FQ
  | .nan => .pinf
  | x => x

/-- Constant-map uv used for concrete sphere instances (the claims never
depend on texture coordinates). -/
def uvZero : Vec3 → ℚ × ℚ := fun _ => (0, 0)

/-- Concrete input for claim C1 (first sphere): unit sphere at `(1,0,2)`. -/
def c1Sphere1 : Sphere Unit := Sphere.new ⟨1, 0, 2⟩ none 1 ()

/-- Concrete input for claim C1 (second sphere): unit sphere at `(0,1,2)`. -/
def c1Sphere2 : Sphere Unit := Sphere.new ⟨0, 1, 2⟩ none 1 ()

/-- Concrete primitive list for claim C1: both spheres are tangent to the
`z` axis, so a ray along that axis hits both at `t = 2`, at the same point
`(0,0,2)`, with different outward normals. -/
def c1Prims : List (HitP Unit) := [c1Sphere1.toPrim uvZero, c1Sphere2.toPrim uvZero]

/-- Concrete ray for claim C1: from the origin along `+z`. -/
def c1Ray : Ray := ⟨⟨0, 0, 0⟩, ⟨0, 0, 1⟩, 0⟩

/-- Concrete query interval for claim C1. -/
def c1Query : Interval := ⟨1 / 1000, 100⟩

/-- Concrete build-time interval for claim C1 and C4. -/
def c1Build : Interval := ⟨0, 1⟩

/-- Concrete primitive list for claim C4: two unit spheres whose bounding
boxes have `x` extent `2` but `y` extent `11`. -/
def c4Prims : List (HitP Unit) :=
  [(Sphere.new ⟨0, 0, 0⟩ none 1 ()).toPrim uvZero,
   (Sphere.new ⟨0, 9, 0⟩ none 1 ()).toPrim uvZero]

/-- Concrete record used by the C1 witness primitive. -/
def wRec : HitRecord Unit :=
  { p := ⟨0, 0, 5⟩, normal := ⟨0, 0, -1⟩, t := 5, front_face := true,
    mat := some (), u := 0, v := 0 }

/-- Concrete bounding box used by the C1 witness primitive. -/
def wBox : AABB := ⟨⟨-10, 10⟩, ⟨-10, 10⟩, ⟨4, 6⟩⟩

/-- Concrete primitive for the C1 witness: reports `wRec` exactly on
intervals strictly surrounding `t = 5`, with bounding box `wBox`. -/
def wPrim : HitP Unit :=
  { hitF := fun _ I => if true = true ∧ memT true true I (5 : ℚ) then some wRec else none
    bboxF := fun _ => some wBox }

/-- Concrete ray for the C1 witness: from the origin along `+z`. -/
def wRay : Ray := ⟨⟨0, 0, 0⟩, ⟨0, 0, 1⟩, 0⟩

/-- Concrete wrapped object for the C5/C10 witnesses: always reports `wRec`
and the bounding box `wBox`. -/
def cwObj : HitP Unit := { hitF := fun _ _ => some wRec, bboxF := fun _ => some wBox }

/-- Concrete sphere for the C2 witness: the unit sphere at the origin. -/
def c2wSphere : Sphere Unit := Sphere.new ⟨0, 0, 0⟩ none 1 ()

/-- Concrete ray for the C2 witness, fired at `c2wSphere` from `z = -2`
(the spec's own §8 example: hit at `t = 1`, normal `(0,0,-1)`). -/
def c2wRay : Ray := ⟨⟨0, 0, -2⟩, ⟨0, 0, 1⟩, 0⟩

/-- The record `Sphere::hit` produces on `c2wRay` against `c2wSphere`. -/
def c2wRec : HitRecord Unit :=
  { p := ⟨0, 0, -1⟩, normal := ⟨0, 0, -1⟩, t := 1, front_face := false,
    mat := some (), u := 0, v := 0 }

/-- Concrete all-miss scene for the C8 witness. -/
def c8World : Ray → Interval → Option (HitRecord Unit) := fun _ _ => none

/-- Concrete always-hit scene for the C8 witness, returning `wRec`. -/
def c8World2 : Ray → Interval → Option (HitRecord Unit) := fun _ _ => some wRec

/-- The integer literal used for `FMAX` is `(2^53 - 1) * 2^971`. -/
theorem FMAX_eq : FMAX = (2 ^ 53 - 1) * 2 ^ 971 := by norm_num [FMAX]

/-- Unfolding lemma for vector addition. -/
theorem Vec3.add_def (a b : Vec3) : a + b = ⟨a.x + b.x, a.y + b.y, a.z + b.z⟩ := rfl

/-- Unfolding lemma for vector subtraction. -/
theorem Vec3.sub_def (a b : Vec3) : a - b = ⟨a.x - b.x, a.y - b.y, a.z - b.z⟩ := rfl

/-- Unfolding lemma for vector negation. -/
theorem Vec3.neg_def (a : Vec3) : -a = ⟨-a.x, -a.y, -a.z⟩ := rfl

/-- Unfolding lemma for the component-wise vector product. -/
theorem Vec3.mul_def (a b : Vec3) : a * b = ⟨a.x * b.x, a.y * b.y, a.z * b.z⟩ := rfl

/-- Nonnegativity of the rational square-root model. -/
theorem ratSqrt_nonneg (q : ℚ) : 0 ≤ ratSqrt q := by
  unfold ratSqrt
  positivity

/-- A nonzero vector has positive dot product with itself. -/
theorem Vec3.dot_self_pos (v : Vec3) (h : v ≠ Vec3.zero) : 0 < v.dot v := by
  have hc : v.x ≠ 0 ∨ v.y ≠ 0 ∨ v.z ≠ 0 := by
    by_contra hc
    push_neg at hc
    exact h (by cases v; simp_all [Vec3.zero])
  unfold Vec3.dot
  rcases hc with hx | hy | hz
  · nlinarith [mul_self_nonneg v.y, mul_self_nonneg v.z, mul_self_pos.mpr hx]
  · nlinarith [mul_self_nonneg v.x, mul_self_nonneg v.z, mul_self_pos.mpr hy]
  · nlinarith [mul_self_nonneg v.x, mul_self_nonneg v.y, mul_self_pos.mpr hz]

/-- Dot product with a scalar-divided vector. -/
theorem Vec3.dot_divQ (a b : Vec3) (k : ℚ) : a.dot (b.divQ k) = a.dot b / k := by
  simp only [Vec3.dot, Vec3.divQ]
  ring

/-- The dot product of the ray direction with the vector from the sphere
center to the ray point at parameter `t` is `h + t * a` in the quadratic's
coefficients. -/
theorem sphere_dot_at {M : Type} (s : Sphere M) (ray : Ray) (t : ℚ) :
    ray.direction.dot (ray.at t - s.center.at ray.tm) =
      Sphere.hCoef s ray + t * Sphere.aCoef ray := by
  simp only [Sphere.hCoef, Sphere.aCoef, Ray.at, Vec3.dot, Vec3.scale,
    Vec3.add_def, Vec3.sub_def]
  ring

/-- C7, counterexample. The claim (mirrored by the repository's own unit
test `test_aabb_hit_false`) asserts that `AABB::hit` on the unit box, from
origin `(0.5,0.5,0.5)` with direction `(0,0,-1)` and interval `[0,1]`,
returns `false`; the code returns `true` — the origin is inside the box and
the overlap `t ∈ [0, 0.5]` lies inside the query interval. -/
theorem c7_counterexample :
    AABB.hit ⟨⟨0, 1⟩, ⟨0, 1⟩, ⟨0, 1⟩⟩ ⟨⟨1/2, 1/2, 1/2⟩, ⟨0, 0, -1⟩, 0⟩ ⟨0, 1⟩ ≠ false := by
  decide

/-- C7, as amended: on the unit box with origin `(0.5,0.5,0.5)` and query
interval `[0,1]`, `AABB::hit` returns `true` for direction `(0,0,1)` and
also `true` for direction `(0,0,-1)` (the ray starts inside the box, so a
positive-`t` overlap with the box exists in both directions). -/
theorem c7_amended :
    AABB.hit ⟨⟨0, 1⟩, ⟨0, 1⟩, ⟨0, 1⟩⟩ ⟨⟨1/2, 1/2, 1/2⟩, ⟨0, 0, 1⟩, 0⟩ ⟨0, 1⟩ = true ∧
    AABB.hit ⟨⟨0, 1⟩, ⟨0, 1⟩, ⟨0, 1⟩⟩ ⟨⟨1/2, 1/2, 1/2⟩, ⟨0, 0, -1⟩, 0⟩ ⟨0, 1⟩ = true := by
  decide

/-- C9, counterexample: `Metal::new` with fuzz `-1` stores `-1`, which does
not lie in `[0, 1]` — the constructor has no lower clamp. -/
theorem c9_counterexample :
    (Metal.new ⟨0, 0, 0⟩ (-1)).fuzz = -1 ∧ ¬ (0 ≤ (Metal.new ⟨0, 0, 0⟩ (-1)).fuzz) := by
  decide

/-- C9, as amended: the stored fuzz is `fuzz` itself when `fuzz < 1` and `1`
otherwise — so it is clamped from above at `1`, but inputs below `0` are
stored unchanged (no lower clamp to `0`). -/
theorem c9_amended :
    ∀ (color : Vec3) (fuzz : ℚ),
      (Metal.new color fuzz).fuzz ≤ 1 ∧
      (fuzz < 1 → (Metal.new color fuzz).fuzz = fuzz) ∧
      (1 ≤ fuzz → (Metal.new color fuzz).fuzz = 1) := by
  intro color fuzz
  refine ⟨?_, fun h => ?_, fun h => ?_⟩ <;>
    simp only [Metal.new] <;> split_ifs with hf <;> first | rfl | linarith

/-- Witness for `c9_amended` at fuzz `-2` and fuzz `2`. -/
theorem c9_witness :
    ((-2 : ℚ) < 1 ∧ (Metal.new ⟨1, 1, 1⟩ (-2)).fuzz = -2) ∧
    ((1 : ℚ) ≤ 2 ∧ (Metal.new ⟨1, 1, 1⟩ 2).fuzz = 1) :=
  ⟨⟨by norm_num, (c9_amended ⟨1, 1, 1⟩ (-2)).2.1 (by norm_num)⟩,
   ⟨by norm_num, (c9_amended ⟨1, 1, 1⟩ 2).2.2 (by norm_num)⟩⟩

/-- C6: when the discriminant is nonnegative but the smaller quadratic root
is not strictly inside the query interval, `Sphere::hit` returns `None`,
even when the larger root lies strictly inside the interval — the code only
ever tests the smaller root. -/
theorem c6_smaller_root_only {M : Type} :
    ∀ (s : Sphere M) (uv : Vec3 → ℚ × ℚ) (ray : Ray) (ti : Interval),
      0 ≤ Sphere.discriminant s ray →
      ¬ ti.surround (Sphere.smallerRoot s ray) →
      ti.surround (Sphere.largerRoot s ray) →
      Sphere.hit s uv ray ti = none := by
  intro s uv ray ti hdisc hnot _
  simp only [Sphere.hit, not_lt.mpr hdisc, if_false, if_pos hnot]

/-- Witness for `c6_smaller_root_only`: a ray from inside the unit sphere;
the smaller root `-1` is outside `(0.001, 100)`, the larger root `1` is
inside, and the hit test returns `None`. -/
theorem c6_witness :
    0 ≤ Sphere.discriminant (Sphere.new ⟨0, 0, 0⟩ none 1 ()) c1Ray ∧
    ¬ Interval.surround c1Query (Sphere.smallerRoot (Sphere.new ⟨0, 0, 0⟩ none 1 ()) c1Ray) ∧
    Interval.surround c1Query (Sphere.largerRoot (Sphere.new ⟨0, 0, 0⟩ none 1 ()) c1Ray) ∧
    Sphere.hit (Sphere.new ⟨0, 0, 0⟩ none 1 ()) uvZero c1Ray c1Query = none :=
  ⟨by decide, by decide, by decide,
   c6_smaller_root_only _ _ _ _ (by decide) (by decide) (by decide)⟩

/-- C10: when the wrapped object hits the offset ray, `Translate::hit`
returns the wrapped record with only the collision point changed — shifted
by the offset — while normal, `t`, `front_face`, material and `(u,v)` are
exactly the wrapped record's. -/
theorem c10_translate_hit {M : Type} :
    ∀ (object : HitP M) (offset : Vec3) (ray : Ray) (ti : Interval) (rec : HitRecord M),
      object.hitF ⟨ray.origin - offset, ray.direction, ray.tm⟩ ti = some rec →
      Translate.hit object offset ray ti =
        some { p := rec.p + offset, normal := rec.normal, t := rec.t,
               front_face := rec.front_face, mat := rec.mat, u := rec.u, v := rec.v } := by
  intro object offset ray ti rec h
  simp only [Translate.hit, h]

/-- Witness for `c10_translate_hit` on a concrete wrapped object. -/
theorem c10_witness :
    Translate.hit cwObj ⟨1, 2, 3⟩ wRay c1Query =
      some { p := wRec.p + ⟨1, 2, 3⟩, normal := wRec.normal, t := wRec.t,
             front_face := wRec.front_face, mat := wRec.mat, u := wRec.u, v := wRec.v } :=
  c10_translate_hit cwObj ⟨1, 2, 3⟩ wRay c1Query wRec rfl

/-- C5: `Translate::bounding_box` returns the wrapped object's bounding box
translated by the offset — both the min and the max corner shifted. The
`AABB::set_max` helper it calls is not among the sources under src/ and is
modelled from the spec (see `AABB.setMaxOffset`). -/
theorem c5_translate_bbox {M : Type} :
    ∀ (object : HitP M) (offset : Vec3) (ti : Interval) (bb : AABB),
      object.bboxF ti = some bb →
      (Translate.boundingBox object offset ti).map AABB.minP = some (bb.minP + offset) ∧
      (Translate.boundingBox object offset ti).map AABB.maxP = some (bb.maxP + offset) := by
  intro object offset ti bb h
  simp only [Translate.boundingBox, h, Option.map_some, AABB.setMaxOffset,
    AABB.minP, AABB.maxP]
  constructor <;> rfl

/-- Witness for `c5_translate_bbox` on a concrete wrapped object. -/
theorem c5_witness :
    (Translate.boundingBox cwObj ⟨1, 2, 3⟩ c1Query).map AABB.minP =
      some (AABB.minP wBox + ⟨1, 2, 3⟩) ∧
    (Translate.boundingBox cwObj ⟨1, 2, 3⟩ c1Query).map AABB.maxP =
      some (AABB.maxP wBox + ⟨1, 2, 3⟩) :=
  c5_translate_bbox cwObj ⟨1, 2, 3⟩ c1Query wBox rfl

/-- C3: at rotation angle 0 (sine 0, cosine 1) on the unit box, the
bounding box computed by `Rotation::new` is `[-INFINITY, INFINITY]` on every
axis rather than the envelope of the 8 rotated corners (which is the unit
box itself): the accumulators are initialized inverted
(`max_point = +INFINITY`, `min_point = -INFINITY`), so none of the corner
comparisons in the loop can ever fire, and no coordinate of the result is
attained by a rotated corner (all of which lie in `[0, 1]`). -/
theorem c3_rotation_bbox_bug :
    Rotation.newBBox ⟨⟨0, 1⟩, ⟨0, 1⟩, ⟨0, 1⟩⟩ .Xaxis 0 1 =
      ⟨⟨-INFINITY, INFINITY⟩, ⟨-INFINITY, INFINITY⟩, ⟨-INFINITY, INFINITY⟩⟩ ∧
    -INFINITY < (0 : ℚ) ∧ (1 : ℚ) < INFINITY := by
  refine ⟨by decide, by decide, by decide⟩

/-- C4: on two unit spheres whose bounding boxes have `x` extent `2` and `y`
extent `11`, `BVH::new` still selects axis 0: the fold inside `axis_range`
starts from the accumulator `(f64::MIN, f64::MAX)` with `min`/`max` applied
the wrong way around, so it returns `f64::MAX - f64::MIN = +inf` for every
axis, and the descending sort leaves axis 0 first regardless of the actual
extents (`specAxisExtent` is the extent the claim describes). -/
theorem c4_axis_selection_bug :
    bvhAxis c4Prims c1Build = 0 ∧
    axisRange c4Prims c1Build 0 = FQ.pinf ∧
    axisRange c4Prims c1Build 1 = FQ.pinf ∧
    axisRange c4Prims c1Build 2 = FQ.pinf ∧
    specAxisExtent c4Prims c1Build 0 < specAxisExtent c4Prims c1Build 1 := by
  refine ⟨by decide, by decide, by decide, by decide, by decide⟩

/-- C2, counterexample: the ray from the origin along `+z` is tangent to the
unit sphere at `(1,0,2)`; `Sphere::hit` returns a record (at `t = 2`), and
the dot product of the ray direction with the returned normal is `0`, not
negative — `Sphere::hit` stores the raw outward normal and never applies
`set_face_normal`, and on a tangent ray the outward normal is perpendicular
to the ray. -/
theorem c2_counterexample :
    (Sphere.hit c1Sphere1 uvZero c1Ray c1Query).map (fun rec => rec.t) = some 2 ∧
    (Sphere.hit c1Sphere1 uvZero c1Ray c1Query).map
      (fun rec => c1Ray.direction.dot rec.normal) = some 0 := by
  refine ⟨by decide, by decide⟩

/-- C2, as amended: the face-normal rule (`set_face_normal`) always yields a
normal with nonpositive dot product against the ray direction — strictly
negative unless the outward normal is perpendicular to the ray; and
`Sphere::hit` (which stores the raw outward normal without applying the
rule) also yields a nonpositive dot product whenever the radius is positive
and the ray direction is nonzero, with equality attained on tangent rays. -/
theorem c2_amended {M : Type} :
    (∀ (rec : HitRecord M) (ray : Ray) (outward : Vec3),
      ray.direction.dot (rec.setFaceNormal ray outward).normal ≤ 0 ∧
      (ray.direction.dot outward ≠ 0 →
        ray.direction.dot (rec.setFaceNormal ray outward).normal < 0)) ∧
    (∀ (s : Sphere M) (uv : Vec3 → ℚ × ℚ) (ray : Ray) (ti : Interval)
      (rec : HitRecord M), 0 < s.radius → ray.direction ≠ Vec3.zero →
      Sphere.hit s uv ray ti = some rec → ray.direction.dot rec.normal ≤ 0) := by
  constructor
  · intro rec ray outward
    simp only [HitRecord.setFaceNormal]
    constructor
    · split_ifs with h
      · exact le_of_lt h
      · simp only [Vec3.dot, Vec3.neg_def]
        push_neg at h
        simp only [Vec3.dot] at h
        linarith
    · intro hne
      split_ifs with h
      · exact h
      · simp only [Vec3.dot, Vec3.neg_def]
        push_neg at h
        simp only [Vec3.dot] at h ⊢
        rcases lt_or_eq_of_le h with h' | h'
        · linarith
        · exact absurd h'.symm (by simpa [Vec3.dot] using hne)
  · intro s uv ray ti rec hrad hdir hhit
    have ha : 0 < Sphere.aCoef ray := Vec3.dot_self_pos ray.direction hdir
    simp only [Sphere.hit] at hhit
    split_ifs at hhit with h1 h2
    have hrec := (Option.some.injEq _ _).mp hhit
    have hnorm : rec.normal =
        (ray.at (Sphere.smallerRoot s ray) - s.center.at ray.tm).divQ s.radius := by
      rw [← hrec]
    rw [hnorm, Vec3.dot_divQ, sphere_dot_at]
    have hkey : Sphere.hCoef s ray + Sphere.smallerRoot s ray * Sphere.aCoef ray =
        -(ratSqrt (Sphere.discriminant s ray)) := by
      unfold Sphere.smallerRoot
      field_simp
      ring
    rw [hkey]
    apply div_nonpos_of_nonpos_of_nonneg
    · simp [ratSqrt_nonneg]
    · exact le_of_lt hrad

/-- Witness for `c2_amended`: the face-normal rule applied to a ray along
`+z` with outward normal `+z` flips the normal and yields dot product
`-1 < 0`; and on the spec's §8 example hit (`c2wRay` against the unit
sphere, record `c2wRec`) the sphere normal has dot product `-1 ≤ 0`. -/
theorem c2_witness :
    (wRay.direction.dot
      ((HitRecord.defaultRec Unit).setFaceNormal wRay ⟨0, 0, 1⟩).normal < 0) ∧
    wRay.direction.dot ((HitRecord.defaultRec Unit).setFaceNormal wRay ⟨0, 0, 1⟩).normal ≤ 0 ∧
    (0 : ℚ) < (Sphere.new (⟨0, 0, 0⟩ : Vec3) (none) (1 : ℚ) ()).radius ∧
    c2wRay.direction.dot c2wRec.normal ≤ 0 :=
  ⟨((@c2_amended Unit).1 (HitRecord.defaultRec Unit) wRay ⟨0, 0, 1⟩).2 (by decide),
   ((@c2_amended Unit).1 (HitRecord.defaultRec Unit) wRay ⟨0, 0, 1⟩).1,
   by decide,
   (@c2_amended Unit).2 c2wSphere uvZero c2wRay ⟨0, 10⟩ c2wRec
     (by decide) (by decide) (by decide)⟩

/-- C8: `Camera::ray_color` returns black when the depth budget is
exhausted (`depth ≤ 0`); on a hit whose material scatters it returns the
emission plus the attenuation times the recursive color of the scattered
ray at `depth - 1`; on a hit whose material does not scatter it returns the
emission alone; and on a miss it returns the camera's configured background
color. The scene is intersected against `t ∈ [0.001, INFINITY]`
(`shadowAcneInterval`). -/
theorem c8_ray_color {M : Type} :
    ∀ (bg : Vec3) (world : Ray → Interval → Option (HitRecord M))
      (scatterF : M → Ray → HitRecord M → Option ScatterRecord)
      (emitF : M → Vec3 → ℚ → ℚ → Vec3) (ray : Ray) (depth : ℤ),
      (depth ≤ 0 → rayColor bg world scatterF emitF ray depth = Vec3.zero) ∧
      (∀ (rec : HitRecord M) (m : M) (sc : ScatterRecord),
        0 < depth → world ray shadowAcneInterval = some rec → rec.mat = some m →
        scatterF m ray rec = some sc →
        rayColor bg world scatterF emitF ray depth =
          emitF m rec.p rec.u rec.v + sc.attenuation *
            rayColor bg world scatterF emitF sc.scattered (depth - 1)) ∧
      (∀ (rec : HitRecord M) (m : M),
        0 < depth → world ray shadowAcneInterval = some rec → rec.mat = some m →
        scatterF m ray rec = none →
        rayColor bg world scatterF emitF ray depth = emitF m rec.p rec.u rec.v) ∧
      (0 < depth → world ray shadowAcneInterval = none →
        rayColor bg world scatterF emitF ray depth = bg) := by
  intro bg world scatterF emitF ray depth
  refine ⟨fun h => ?_, fun rec m sc hd hw hm hs => ?_, fun rec m hd hw hm hs => ?_,
    fun hd hw => ?_⟩
  · rw [rayColor, if_pos h]
  · rw [rayColor, if_neg (by omega)]
    simp only [hw, hm, hs]
  · rw [rayColor, if_neg (by omega)]
    simp only [hw, hm, hs]
  · rw [rayColor, if_neg (by omega)]
    simp only [hw]

/-- Witness for `c8_ray_color` on concrete scenes: a miss returns the
background, depth `0` returns black, and a non-scattering hit returns the
emission value. -/
theorem c8_witness :
    rayColor ⟨5, 6, 7⟩ c8World (fun _ _ _ => none) (fun _ p _ _ => p) wRay 1 = ⟨5, 6, 7⟩ ∧
    rayColor ⟨5, 6, 7⟩ c8World (fun _ _ _ => none) (fun _ p _ _ => p) wRay 0 = Vec3.zero ∧
    rayColor ⟨5, 6, 7⟩ c8World2 (fun _ _ _ => none) (fun _ p _ _ => p) wRay 1 = wRec.p :=
  ⟨(c8_ray_color ⟨5, 6, 7⟩ c8World (fun _ _ _ => none) (fun _ p _ _ => p) wRay 1).2.2.2
     (by norm_num) rfl,
   (c8_ray_color ⟨5, 6, 7⟩ c8World (fun _ _ _ => none) (fun _ p _ _ => p) wRay 0).1
     (by norm_num),
   (c8_ray_color ⟨5, 6, 7⟩ c8World2 (fun _ _ _ => none) (fun _ p _ _ => p) wRay 1).2.2.1
     wRec () (by norm_num) rfl rfl rfl⟩

/-- IEEE `<=` implies both operands are not NaN. -/
theorem FQ.leb_ne_nan {a b : FQ} (h : FQ.leb a b = true) : a ≠ .nan ∧ b ≠ .nan := by
  cases a <;> cases b <;> simp_all [FQ.leb]

/-- Transitivity of IEEE `<=`. -/
theorem FQ.leb_trans {a b c : FQ} (h1 : FQ.leb a b = true) (h2 : FQ.leb b c = true) :
    FQ.leb a c = true := by
  cases a <;> cases b <;> cases c <;> simp_all [FQ.leb] <;> linarith

/-- The overflow injection never produces NaN. -/
theorem FQ.ofQ_ne_nan (q : ℚ) : FQ.ofQ q ≠ .nan := by
  unfold FQ.ofQ
  split_ifs <;> simp

/-- De-NaN-ed values are never NaN (lower variant). -/
theorem FQ.deLo_ne_nan (a : FQ) : a.deLo ≠ .nan := by
  cases a <;> simp [FQ.deLo]

/-- De-NaN-ed values are never NaN (upper variant). -/
theorem FQ.deHi_ne_nan (a : FQ) : a.deHi ≠ .nan := by
  cases a <;> simp [FQ.deHi]

/-- On non-NaN values, IEEE `<=` agrees with the order embedding `toE`. -/
theorem FQ.leb_toE {a b : FQ} (ha : a ≠ .nan) (hb : b ≠ .nan) :
    FQ.leb a b = true ↔ a.toE ≤ b.toE := by
  cases a <;> cases b <;>
    simp_all [FQ.leb, FQ.toE, WithBot.coe_le_coe, WithTop.coe_le_coe]

/-- Monotonicity of the overflow injection under `toE`. -/
theorem FQ.ofQ_toE_mono {x y : ℚ} (h : x ≤ y) : (FQ.ofQ x).toE ≤ (FQ.ofQ y).toE := by
  unfold FQ.ofQ
  split_ifs with h1 h2 h3 h4 h5 <;>
    simp_all [FQ.toE, WithBot.coe_le_coe, WithTop.coe_le_coe] <;> linarith

/-- Inside `fmax` with a non-NaN left operand, a NaN right operand behaves
exactly like `-inf`: both are ignored. -/
theorem FQ.fmax_deLo (a b : FQ) (ha : a ≠ .nan) : FQ.fmax a b = FQ.fmax a b.deLo := by
  cases a <;> cases b <;> simp_all [FQ.fmax, FQ.deLo, FQ.ltb]

/-- Inside `fmin` with a non-NaN left operand, a NaN right operand behaves
exactly like `+inf`: both are ignored. -/
theorem FQ.fmin_deHi (a b : FQ) (ha : a ≠ .nan) : FQ.fmin a b = FQ.fmin a b.deHi := by
  cases a <;> cases b <;> simp_all [FQ.fmin, FQ.deHi, FQ.ltb]

/-- On non-NaN operands, `fmax` is not NaN and realizes the `toE` maximum. -/
theorem FQ.fmax_toE {a b : FQ} (ha : a ≠ .nan) (hb : b ≠ .nan) :
    FQ.fmax a b ≠ .nan ∧ (FQ.fmax a b).toE = max a.toE b.toE := by
  cases a <;> cases b <;>
    simp_all [FQ.fmax, FQ.ltb, FQ.toE] <;>
    first
    | simp [max_eq_left, max_eq_right, le_of_lt]
    | (rename_i x y
       rcases lt_or_le x y with hxy | hxy
       · simp [hxy, max_eq_right (le_of_lt hxy), WithBot.coe_le_coe,
           WithTop.coe_le_coe] <;> try linarith
       · simp [not_lt.mpr hxy, max_eq_left hxy, WithBot.coe_le_coe,
           WithTop.coe_le_coe] <;> try linarith)

/-- On non-NaN operands, `fmin` is not NaN and realizes the `toE` minimum. -/
theorem FQ.fmin_toE {a b : FQ} (ha : a ≠ .nan) (hb : b ≠ .nan) :
    FQ.fmin a b ≠ .nan ∧ (FQ.fmin a b).toE = min a.toE b.toE := by
  cases a <;> cases b <;>
    simp_all [FQ.fmin, FQ.ltb, FQ.toE] <;>
    first
    | simp [min_eq_left, min_eq_right, le_of_lt]
    | (rename_i x y
       rcases lt_or_le y x with hxy | hxy
       · simp [hxy, min_eq_right (le_of_lt hxy), WithBot.coe_le_coe,
           WithTop.coe_le_coe] <;> try linarith
       · simp [not_lt.mpr hxy, min_eq_left hxy, WithBot.coe_le_coe,
           WithTop.coe_le_coe] <;> try linarith)

/-- The reciprocal used by the slab test is never NaN. -/
theorem FQ.inv_ne_nan (d : ℚ) : FQ.inv d ≠ .nan := by
  unfold FQ.inv
  split_ifs
  · simp
  · exact FQ.ofQ_ne_nan _

/-- For a nonnegative (possibly infinite) slab reciprocal, the de-NaN-ed
lower slab parameter is monotone in the rational factor. -/
theorem FQ.mulQ_deLo_mono {inv : FQ} (hnn : inv ≠ .nan)
    (hpos : FQ.ltb inv (.fin 0) = false) {x y : ℚ} (h : x ≤ y) :
    (FQ.mulQ x inv).deLo.toE ≤ (FQ.mulQ y inv).deLo.toE := by
  cases inv with
  | nan => exact absurd rfl hnn
  | minf => simp [FQ.ltb] at hpos
  | pinf =>
    simp only [FQ.mulQ]
    rcases lt_trichotomy 0 x with hx | hx | hx
    · rw [if_pos hx, if_pos (by linarith)]
    · rcases lt_trichotomy 0 y with hy | hy | hy
      · rw [if_neg (by linarith), if_neg (by linarith), if_pos hy]
        simp [FQ.deLo, FQ.toE]
      · rw [if_neg (by linarith), if_neg (by linarith), if_neg (by linarith),
          if_neg (by linarith)]
      · linarith
    · rcases lt_trichotomy 0 y with hy | hy | hy
      · rw [if_neg (by linarith), if_pos (by linarith), if_pos hy]
        simp [FQ.deLo, FQ.toE]
      · rw [if_neg (by linarith), if_pos (by linarith), if_neg (by linarith),
          if_neg (by linarith)]
        simp [FQ.deLo, FQ.toE]
      · rw [if_neg (by linarith), if_pos (by linarith), if_neg (by linarith),
          if_pos (by linarith)]
  | fin q =>
    have hq : 0 ≤ q := by
      by_contra hq
      simp [FQ.ltb, not_le.mp hq] at hpos
    simp only [FQ.mulQ]
    have : x * q ≤ y * q := mul_le_mul_of_nonneg_right h hq
    have h1 := FQ.ofQ_toE_mono this
    have h2 := FQ.ofQ_ne_nan (x * q)
    have h3 := FQ.ofQ_ne_nan (y * q)
    cases e1 : FQ.ofQ (x * q) <;> cases e2 : FQ.ofQ (y * q) <;>
      simp_all [FQ.deLo, FQ.toE]

/-- For a nonnegative (possibly infinite) slab reciprocal, the de-NaN-ed
upper slab parameter is monotone in the rational factor. -/
theorem FQ.mulQ_deHi_mono {inv : FQ} (hnn : inv ≠ .nan)
    (hpos : FQ.ltb inv (.fin 0) = false) {x y : ℚ} (h : x ≤ y) :
    (FQ.mulQ x inv).deHi.toE ≤ (FQ.mulQ y inv).deHi.toE := by
  cases inv with
  | nan => exact absurd rfl hnn
  | minf => simp [FQ.ltb] at hpos
  | pinf =>
    simp only [FQ.mulQ]
    rcases lt_trichotomy 0 x with hx | hx | hx
    · rw [if_pos hx, if_pos (by linarith)]
    · rcases lt_trichotomy 0 y with hy | hy | hy
      · rw [if_neg (by linarith), if_neg (by linarith), if_pos hy]
        simp [FQ.deHi, FQ.toE]
      · rw [if_neg (by linarith), if_neg (by linarith), if_neg (by linarith),
          if_neg (by linarith)]
      · linarith
    · rcases lt_trichotomy 0 y with hy | hy | hy
      · rw [if_neg (by linarith), if_pos (by linarith), if_pos hy]
        simp [FQ.deHi, FQ.toE]
      · rw [if_neg (by linarith), if_pos (by linarith), if_neg (by linarith),
          if_neg (by linarith)]
        simp [FQ.deHi, FQ.toE]
      · rw [if_neg (by linarith), if_pos (by linarith), if_neg (by linarith),
          if_pos (by linarith)]
  | fin q =>
    have hq : 0 ≤ q := by
      by_contra hq
      simp [FQ.ltb, not_le.mp hq] at hpos
    simp only [FQ.mulQ]
    have : x * q ≤ y * q := mul_le_mul_of_nonneg_right h hq
    have h1 := FQ.ofQ_toE_mono this
    have h2 := FQ.ofQ_ne_nan (x * q)
    have h3 := FQ.ofQ_ne_nan (y * q)
    cases e1 : FQ.ofQ (x * q) <;> cases e2 : FQ.ofQ (y * q) <;>
      simp_all [FQ.deHi, FQ.toE]

/-- For a negative (possibly infinite) slab reciprocal, the de-NaN-ed lower
slab parameter is antitone in the rational factor. -/
theorem FQ.mulQ_deLo_anti {inv : FQ} (hneg : FQ.ltb inv (.fin 0) = true)
    {x y : ℚ} (h : x ≤ y) :
    (FQ.mulQ y inv).deLo.toE ≤ (FQ.mulQ x inv).deLo.toE := by
  cases inv with
  | nan => simp [FQ.ltb] at hneg
  | pinf => simp [FQ.ltb] at hneg
  | minf =>
    simp only [FQ.mulQ]
    rcases lt_trichotomy 0 y with hy | hy | hy
    · rcases lt_trichotomy 0 x with hx | hx | hx
      · rw [if_pos hx, if_pos hy]
      · rw [if_pos hy, if_neg (by linarith), if_neg (by linarith)]
        simp [FQ.deLo, FQ.toE]
      · rw [if_pos hy, if_neg (by linarith), if_pos (by linarith)]
        simp [FQ.deLo, FQ.toE]
    · rcases lt_trichotomy 0 x with hx | hx | hx
      · linarith
      · rw [if_neg (by linarith), if_neg (by linarith), if_neg (by linarith),
          if_neg (by linarith)]
      · rw [if_neg (by linarith), if_neg (by linarith), if_neg (by linarith),
          if_pos (by linarith)]
        simp [FQ.deLo, FQ.toE]
    · rcases lt_trichotomy 0 x with hx | hx | hx
      · linarith
      · linarith
      · rw [if_neg (by linarith), if_pos (by linarith), if_neg (by linarith),
          if_pos (by linarith)]
  | fin q =>
    have hq : q < 0 := by simpa [FQ.ltb] using hneg
    simp only [FQ.mulQ]
    have : y * q ≤ x * q := mul_le_mul_of_nonpos_right h (le_of_lt hq)
    have h1 := FQ.ofQ_toE_mono this
    have h2 := FQ.ofQ_ne_nan (y * q)
    have h3 := FQ.ofQ_ne_nan (x * q)
    cases e1 : FQ.ofQ (y * q) <;> cases e2 : FQ.ofQ (x * q) <;>
      simp_all [FQ.deLo, FQ.toE]

/-- For a negative (possibly infinite) slab reciprocal, the de-NaN-ed upper
slab parameter is antitone in the rational factor. -/
theorem FQ.mulQ_deHi_anti {inv : FQ} (hneg : FQ.ltb inv (.fin 0) = true)
    {x y : ℚ} (h : x ≤ y) :
    (FQ.mulQ y inv).deHi.toE ≤ (FQ.mulQ x inv).deHi.toE := by
  cases inv with
  | nan => simp [FQ.ltb] at hneg
  | pinf => simp [FQ.ltb] at hneg
  | minf =>
    simp only [FQ.mulQ]
    rcases lt_trichotomy 0 y with hy | hy | hy
    · rcases lt_trichotomy 0 x with hx | hx | hx
      · rw [if_pos hx, if_pos hy]
      · rw [if_pos hy, if_neg (by linarith), if_neg (by linarith)]
        simp [FQ.deHi, FQ.toE]
      · rw [if_pos hy, if_neg (by linarith), if_pos (by linarith)]
        simp [FQ.deHi, FQ.toE]
    · rcases lt_trichotomy 0 x with hx | hx | hx
      · linarith
      · rw [if_neg (by linarith), if_neg (by linarith), if_neg (by linarith),
          if_neg (by linarith)]
      · rw [if_neg (by linarith), if_neg (by linarith), if_neg (by linarith),
          if_pos (by linarith)]
        simp [FQ.deHi, FQ.toE]
    · rcases lt_trichotomy 0 x with hx | hx | hx
      · linarith
      · linarith
      · rw [if_neg (by linarith), if_pos (by linarith), if_neg (by linarith),
          if_pos (by linarith)]
  | fin q =>
    have hq : q < 0 := by simpa [FQ.ltb] using hneg
    simp only [FQ.mulQ]
    have : y * q ≤ x * q := mul_le_mul_of_nonpos_right h (le_of_lt hq)
    have h1 := FQ.ofQ_toE_mono this
    have h2 := FQ.ofQ_ne_nan (y * q)
    have h3 := FQ.ofQ_ne_nan (x * q)
    cases e1 : FQ.ofQ (y * q) <;> cases e2 : FQ.ofQ (x * q) <;>
      simp_all [FQ.deHi, FQ.toE]

/-- Monotone update through `fmax`: with ordered accumulators and ordered
(de-NaN-ed) slab parameters, the updated lower bounds stay ordered. -/
theorem FQ.fmax_leb_mono {a1 a2 b1 b2 : FQ} (ha : FQ.leb a2 a1 = true)
    (hb : b2.deLo.toE ≤ b1.deLo.toE) :
    FQ.leb (FQ.fmax a2 b2) (FQ.fmax a1 b1) = true := by
  obtain ⟨ha2, ha1⟩ := FQ.leb_ne_nan ha
  rw [FQ.fmax_deLo a2 b2 ha2, FQ.fmax_deLo a1 b1 ha1]
  have n2 := FQ.deLo_ne_nan b2
  have n1 := FQ.deLo_ne_nan b1
  obtain ⟨nn2, he2⟩ := FQ.fmax_toE ha2 n2
  obtain ⟨nn1, he1⟩ := FQ.fmax_toE ha1 n1
  rw [FQ.leb_toE nn2 nn1, he2, he1]
  exact max_le_max ((FQ.leb_toE ha2 ha1).mp ha) hb

/-- Monotone update through `fmin`: with ordered accumulators and ordered
(de-NaN-ed) slab parameters, the updated upper bounds stay ordered. -/
theorem FQ.fmin_leb_mono {a1 a2 b1 b2 : FQ} (ha : FQ.leb a1 a2 = true)
    (hb : b1.deHi.toE ≤ b2.deHi.toE) :
    FQ.leb (FQ.fmin a1 b1) (FQ.fmin a2 b2) = true := by
  obtain ⟨ha1, ha2⟩ := FQ.leb_ne_nan ha
  rw [FQ.fmin_deHi a1 b1 ha1, FQ.fmin_deHi a2 b2 ha2]
  have n1 := FQ.deHi_ne_nan b1
  have n2 := FQ.deHi_ne_nan b2
  obtain ⟨nn1, he1⟩ := FQ.fmin_toE ha1 n1
  obtain ⟨nn2, he2⟩ := FQ.fmin_toE ha2 n2
  rw [FQ.leb_toE nn1 nn2, he1, he2]
  exact min_le_min ((FQ.leb_toE ha1 ha2).mp ha) hb

/-- Monotonicity of one slab-test step: widening the axis interval can only
loosen the running `(t_min, t_max)` pair. -/
theorem slabStep_mono (o d : ℚ) (ax1 ax2 : Interval)
    (hmin : ax2.min ≤ ax1.min) (hmax : ax1.max ≤ ax2.max)
    {tmin1 tmin2 tmax1 tmax2 : FQ}
    (h1 : FQ.leb tmin2 tmin1 = true) (h2 : FQ.leb tmax1 tmax2 = true) :
    FQ.leb (slabStep o d ax2 tmin2 tmax2).1 (slabStep o d ax1 tmin1 tmax1).1 = true ∧
    FQ.leb (slabStep o d ax1 tmin1 tmax1).2 (slabStep o d ax2 tmin2 tmax2).2 = true := by
  have hnn := FQ.inv_ne_nan d
  unfold slabStep
  cases hb : FQ.ltb (FQ.inv d) (.fin 0) with
  | true =>
    simp only [hb, if_true]
    constructor
    · exact FQ.fmax_leb_mono h1
        (FQ.mulQ_deLo_anti hb (by linarith : ax1.max - o ≤ ax2.max - o))
    · exact FQ.fmin_leb_mono h2
        (FQ.mulQ_deHi_anti hb (by linarith : ax2.min - o ≤ ax1.min - o))
  | false =>
    simp only [hb, if_false]
    constructor
    · exact FQ.fmax_leb_mono h1
        (FQ.mulQ_deLo_mono hnn hb (by linarith : ax2.min - o ≤ ax1.min - o))
    · exact FQ.fmin_leb_mono h2
        (FQ.mulQ_deHi_mono hnn hb (by linarith : ax1.max - o ≤ ax2.max - o))

/-- Monotonicity of the whole slab loop: if the test passes on a list of
axis slabs, it also passes when every slab is widened and the initial
bounds are loosened. -/
theorem slabGo_mono :
    ∀ (axes : List ((ℚ × ℚ) × Interval × Interval)) {tmin1 tmin2 tmax1 tmax2 : FQ},
      (∀ e ∈ axes, e.2.2.min ≤ e.2.1.min ∧ e.2.1.max ≤ e.2.2.max) →
      FQ.leb tmin2 tmin1 = true → FQ.leb tmax1 tmax2 = true →
      slabGo (axes.map fun e => (e.1.1, e.1.2, e.2.1)) tmin1 tmax1 = true →
      slabGo (axes.map fun e => (e.1.1, e.1.2, e.2.2)) tmin2 tmax2 = true := by
  intro axes
  induction axes with
  | nil => intro _ _ _ _ _ _ _ _; simp [slabGo]
  | cons e rest ih =>
    intro tmin1 tmin2 tmax1 tmax2 hax h1 h2 hgo
    obtain ⟨hemin, hemax⟩ := hax e (List.mem_cons_self e rest)
    obtain ⟨m1, m2⟩ := slabStep_mono e.1.1 e.1.2 e.2.1 e.2.2 hemin hemax h1 h2
    simp only [List.map_cons, slabGo] at hgo ⊢
    by_cases hstop1 : FQ.leb (slabStep e.1.1 e.1.2 e.2.1 tmin1 tmax1).2
        (slabStep e.1.1 e.1.2 e.2.1 tmin1 tmax1).1 = true
    · rw [if_pos hstop1] at hgo
      exact absurd hgo (by simp)
    · rw [if_neg hstop1] at hgo
      have hstop2 : ¬ FQ.leb (slabStep e.1.1 e.1.2 e.2.2 tmin2 tmax2).2
          (slabStep e.1.1 e.1.2 e.2.2 tmin2 tmax2).1 = true := by
        intro habs
        exact hstop1 (FQ.leb_trans (FQ.leb_trans m2 habs) m1)
      rw [if_neg hstop2]
      exact ih (fun x hx => hax x (List.mem_cons_of_mem e hx)) m1 m2 hgo

/-- Reflexivity of IEEE `<=` on finite values. -/
theorem FQ.leb_fin_refl (q : ℚ) : FQ.leb (.fin q) (.fin q) = true := by
  simp [FQ.leb]

/-- Monotonicity of `AABB::hit` under box enlargement: a ray/interval pair
accepted by a box is accepted by every enclosing box. -/
theorem AABB.hit_mono {b1 b2 : AABB} (hin : boxInside b1 b2) (r : Ray)
    (ti : Interval) (h : AABB.hit b1 r ti = true) : AABB.hit b2 r ti = true := by
  have := slabGo_mono
    [((r.origin.x, r.direction.x), b1.x, b2.x),
     ((r.origin.y, r.direction.y), b1.y, b2.y),
     ((r.origin.z, r.direction.z), b1.z, b2.z)]
    (by
      intro e he
      simp only [List.mem_cons, List.not_mem_nil, or_false] at he
      rcases he with he | he | he <;> subst he <;>
        first
        | exact ⟨hin.1.1, hin.1.2⟩
        | exact ⟨hin.2.1.1, hin.2.1.2⟩
        | exact ⟨hin.2.2.1, hin.2.2.2⟩)
    (FQ.leb_fin_refl ti.min) (FQ.leb_fin_refl ti.max)
  simpa [AABB.hit] using this (by simpa [AABB.hit] using h)

/-- Componentwise reflexivity of box inclusion. -/
theorem boxInside_refl (b : AABB) : boxInside b b := by
  unfold boxInside
  refine ⟨⟨le_refl _, le_refl _⟩, ⟨le_refl _, le_refl _⟩, le_refl _, le_refl _⟩

/-- Transitivity of box inclusion. -/
theorem boxInside_trans {a b c : AABB} (h1 : boxInside a b) (h2 : boxInside b c) :
    boxInside a c := by
  unfold boxInside at h1 h2 ⊢
  exact ⟨⟨le_trans h2.1.1 h1.1.1, le_trans h1.1.2 h2.1.2⟩,
    ⟨le_trans h2.2.1.1 h1.2.1.1, le_trans h1.2.1.2 h2.2.1.2⟩,
    le_trans h2.2.2.1 h1.2.2.1, le_trans h1.2.2.2 h2.2.2.2⟩

/-- Per-axis description of `AABB::from_points`. -/
theorem fromPoints_axes (a b : Vec3) :
    (AABB.fromPoints a b).x = ⟨min a.x b.x, max a.x b.x⟩ ∧
    (AABB.fromPoints a b).y = ⟨min a.y b.y, max a.y b.y⟩ ∧
    (AABB.fromPoints a b).z = ⟨min a.z b.z, max a.z b.z⟩ := by
  refine ⟨?_, ?_, ?_⟩ <;> simp only [AABB.fromPoints]
  · split_ifs with h
    · rw [min_eq_left h, max_eq_right h]
    · rw [min_eq_right (le_of_not_le h), max_eq_left (le_of_not_le h)]
  · split_ifs with h
    · rw [min_eq_left h, max_eq_right h]
    · rw [min_eq_right (le_of_not_le h), max_eq_left (le_of_not_le h)]
  · split_ifs with h
    · rw [min_eq_left h, max_eq_right h]
    · rw [min_eq_right (le_of_not_le h), max_eq_left (le_of_not_le h)]

/-- The merged box of `surrounding_box` contains its left argument. -/
theorem boxInside_surrounding_left (b c : AABB) :
    boxInside b (surroundingBox b c) := by
  unfold surroundingBox boxInside
  obtain ⟨hx, hy, hz⟩ := fromPoints_axes
    (⟨min b.x.min c.x.min, min b.y.min c.y.min, min b.z.min c.z.min⟩ : Vec3)
    (⟨max b.x.max c.x.max, max b.y.max c.y.max, max b.z.max c.z.max⟩ : Vec3)
  rw [hx, hy, hz]
  simp only []
  exact ⟨⟨le_trans (min_le_left _ _) (min_le_left _ _),
          le_trans (le_max_left _ _) (le_max_right _ _)⟩,
         ⟨le_trans (min_le_left _ _) (min_le_left _ _),
          le_trans (le_max_left _ _) (le_max_right _ _)⟩,
         le_trans (min_le_left _ _) (min_le_left _ _),
         le_trans (le_max_left _ _) (le_max_right _ _)⟩

/-- The merged box of `surrounding_box` contains its right argument. -/
theorem boxInside_surrounding_right (b c : AABB) :
    boxInside c (surroundingBox b c) := by
  unfold surroundingBox boxInside
  obtain ⟨hx, hy, hz⟩ := fromPoints_axes
    (⟨min b.x.min c.x.min, min b.y.min c.y.min, min b.z.min c.z.min⟩ : Vec3)
    (⟨max b.x.max c.x.max, max b.y.max c.y.max, max b.z.max c.z.max⟩ : Vec3)
  rw [hx, hy, hz]
  simp only []
  exact ⟨⟨le_trans (min_le_left _ _) (min_le_right _ _),
          le_trans (le_max_right _ _) (le_max_right _ _)⟩,
         ⟨le_trans (min_le_left _ _) (min_le_right _ _),
          le_trans (le_max_right _ _) (le_max_right _ _)⟩,
         le_trans (min_le_left _ _) (min_le_right _ _),
         le_trans (le_max_right _ _) (le_max_right _ _)⟩

/-- Every leaf primitive of a well-built tree has a bounding box that lies
inside the node's cached box. -/
theorem built_leaf_box {M : Type} {bti : Interval} :
    ∀ {t : BVHTree M}, BuiltB bti t → ∀ p ∈ t.leaves,
      ∃ bb, p.bboxF bti = some bb ∧ boxInside bb t.bbox := by
  intro t hb
  induction hb with
  | leaf q bb hbb =>
    intro p hp
    simp only [BVHTree.leaves, List.mem_singleton] at hp
    subst hp
    exact ⟨bb, hbb, by simpa [BVHTree.bbox] using boxInside_refl bb⟩
  | branch l r hl hr ihl ihr =>
    intro p hp
    simp only [BVHTree.leaves, List.mem_append] at hp
    rcases hp with hp | hp
    · obtain ⟨bb, h1, h2⟩ := ihl p hp
      exact ⟨bb, h1, boxInside_trans h2 (by
        simpa [BVHTree.bbox] using boxInside_surrounding_left l.bbox r.bbox)⟩
    · obtain ⟨bb, h1, h2⟩ := ihr p hp
      exact ⟨bb, h1, boxInside_trans h2 (by
        simpa [BVHTree.bbox] using boxInside_surrounding_right l.bbox r.bbox)⟩

/-- Inserting preserves the elements (up to permutation). -/
theorem ordInsert_perm {α : Type} (lt : α → α → Bool) (x : α) :
    ∀ (l : List α), List.Perm (ordInsert lt x l) (x :: l) := by
  intro l
  induction l with
  | nil => simp [ordInsert]
  | cons y ys ih =>
    unfold ordInsert
    split_ifs with h
    · exact List.Perm.trans (List.Perm.cons y ih) (List.Perm.swap x y ys)
    · exact List.Perm.refl _

/-- The insertion-sort model permutes its input. -/
theorem insSort_perm {α : Type} (lt : α → α → Bool) :
    ∀ (l : List α), List.Perm (insSort lt l) l := by
  intro l
  induction l with
  | nil => simp [insSort]
  | cons x xs ih =>
    exact List.Perm.trans (ordInsert_perm lt x (insSort lt xs))
      (List.Perm.cons x ih)

/-- A parameter inside an interval is at most its upper bound. -/
theorem memT_le_max {lo hi : Bool} {ti : Interval} {t : ℚ} (h : memT lo hi ti t) :
    t ≤ ti.max := by
  cases hi <;> simp [memT] at h <;> [exact h.2; exact le_of_lt h.2]

/-- Widening the upper bound preserves interval membership. -/
theorem memT_mono_max {lo hi : Bool} {ti : Interval} {t c : ℚ}
    (h : memT lo hi ti t) (hc : ti.max ≤ c) : memT lo hi ⟨ti.min, c⟩ t := by
  cases hi <;> cases lo <;> simp [memT] at h ⊢ <;>
    exact ⟨h.1, by linarith [h.2]⟩

/-- If a parameter is inside the wide interval but not inside the interval
shrunk to upper bound `c`, then `c` is at most the parameter. -/
theorem memT_lower {lo hi : Bool} {m C c t : ℚ}
    (hbig : memT lo hi ⟨m, C⟩ t) (hnot : ¬ memT lo hi ⟨m, c⟩ t) : c ≤ t := by
  cases hi <;> cases lo <;> simp [memT] at hbig hnot <;>
    (have h9 := hnot hbig.1; linarith)

/-- A successful `BVH::new` yields a well-built tree whose leaves are a
permutation of the input primitives. -/
theorem bvhNewGo_ok {M : Type} {bti : Interval} :
    ∀ (fuel : ℕ) (l : List (HitP M)) (t : BVHTree M),
      bvhNewGo bti fuel l = some t → BuiltB bti t ∧ List.Perm t.leaves l := by
  intro fuel
  induction fuel with
  | zero => intro l t h; simp [bvhNewGo] at h
  | succ fuel ih =>
    intro l t h
    rw [bvhNewGo] at h
    have hperm : List.Perm (insSort
        (fun a b => boxCompareKey bti (bvhAxis l bti) a < boxCompareKey bti (bvhAxis l bti) b) l) l :=
      insSort_perm _ l
    revert h
    generalize hs : insSort
        (fun a b => boxCompareKey bti (bvhAxis l bti) a < boxCompareKey bti (bvhAxis l bti) b) l
      = sorted
    rw [hs] at hperm
    intro h
    match hm : sorted with
    | [] => simp [hm] at h
    | [p] =>
      subst hm
      simp only [Option.map_eq_some'] at h
      obtain ⟨bb, hbb, ht⟩ := h
      subst ht
      exact ⟨BuiltB.leaf p bb hbb, by simpa [BVHTree.leaves] using hperm⟩
    | p1 :: p2 :: rest =>
      subst hm
      simp only at h
      split_ifs at h with hall
      revert h
      generalize hL : bvhNewGo bti fuel
          ((p1 :: p2 :: rest).take ((p1 :: p2 :: rest).length / 2)) = oL
      generalize hR : bvhNewGo bti fuel
          ((p1 :: p2 :: rest).drop ((p1 :: p2 :: rest).length / 2)) = oR
      intro h
      match oL, oR, h with
      | some lt, some rt, h =>
        obtain ht : BVHTree.branch lt rt (surroundingBox lt.bbox rt.bbox) = t :=
          Option.some.inj h
        subst ht
        obtain ⟨hbL, hpL⟩ := ih _ lt hL
        obtain ⟨hbR, hpR⟩ := ih _ rt hR
        refine ⟨BuiltB.branch lt rt hbL hbR, ?_⟩
        have : List.Perm (lt.leaves ++ rt.leaves)
            ((p1 :: p2 :: rest).take ((p1 :: p2 :: rest).length / 2) ++
             (p1 :: p2 :: rest).drop ((p1 :: p2 :: rest).length / 2)) :=
          List.Perm.append hpL hpR
        rw [List.take_append_drop] at this
        exact List.Perm.trans this hperm

/-- Characterization of the linear-scan accumulator loop of
`HittableList::hit`: a `none` result means the accumulator was empty and no
primitive hits the current interval; a `some` result is the record of a
hitting primitive (or the accumulator), with minimal `t` among all
primitives hitting the current interval. -/
theorem listHitGo_spec {M : Type} (r : Ray) (fhits flo fhi : HitP M → Bool)
    (frec : HitP M → HitRecord M) (m : ℚ) :
    ∀ (l : List (HitP M)) (temp : Option (HitRecord M)) (closest : ℚ),
      (∀ p ∈ l, CharOK r fhits flo fhi frec p) →
      (∀ rec0, temp = some rec0 → rec0.t = closest) →
      (listHitGo r m l temp closest = none →
        temp = none ∧ ∀ p ∈ l, ¬ HitsAt fhits flo fhi frec ⟨m, closest⟩ p) ∧
      (∀ res, listHitGo r m l temp closest = some res →
        res.t ≤ closest ∧
        (temp = some res ∨
          ∃ p ∈ l, HitsAt fhits flo fhi frec ⟨m, closest⟩ p ∧ res = frec p) ∧
        (∀ p ∈ l, HitsAt fhits flo fhi frec ⟨m, closest⟩ p → res.t ≤ (frec p).t)) := by
  intro l
  induction l with
  | nil =>
    intro temp closest hc htemp
    constructor
    · intro h
      exact ⟨by simpa [listHitGo] using h, by simp⟩
    · intro res h
      have heq : temp = some res := by simpa [listHitGo] using h
      exact ⟨le_of_eq (htemp res heq), Or.inl heq, by simp⟩
  | cons q rest ih =>
    intro temp closest hc htemp
    have hcq := hc q (List.mem_cons_self q rest)
    have hcrest : ∀ p ∈ rest, CharOK r fhits flo fhi frec p :=
      fun p hp => hc p (List.mem_cons_of_mem q hp)
    by_cases hq : fhits q = true ∧ memT (flo q) (fhi q) ⟨m, closest⟩ (frec q).t
    · have hstep : listHitGo r m (q :: rest) temp closest
          = listHitGo r m rest (some (frec q)) (frec q).t := by
        simp only [listHitGo]
        rw [hcq ⟨m, closest⟩, if_pos hq]
      obtain ⟨ihn, ihs⟩ := ih (some (frec q)) (frec q).t hcrest
        (fun rec0 h0 => by cases h0; rfl)
      constructor
      · intro h
        rw [hstep] at h
        obtain ⟨habs, _⟩ := ihn h
        exact absurd habs (by simp)
      · intro res h
        rw [hstep] at h
        obtain ⟨hle, horig, hmin⟩ := ihs res h
        have hqt : (frec q).t ≤ closest := memT_le_max hq.2
        refine ⟨le_trans hle hqt, Or.inr ?_, ?_⟩
        · rcases horig with htemp' | ⟨p, hp, hhit, heq⟩
          · exact ⟨q, List.mem_cons_self q rest, hq, (Option.some.inj htemp').symm⟩
          · exact ⟨p, List.mem_cons_of_mem q hp, ⟨hhit.1, memT_mono_max hhit.2 hqt⟩, heq⟩
        · intro p hp hhit
          rcases List.mem_cons.mp hp with rfl | hp'
          · exact hle
          · by_cases hh' : HitsAt fhits flo fhi frec ⟨m, (frec q).t⟩ p
            · exact hmin p hp' hh'
            · exact le_trans hle (memT_lower hhit.2 (fun hmm => hh' ⟨hhit.1, hmm⟩))
    · have hstep : listHitGo r m (q :: rest) temp closest
          = listHitGo r m rest temp closest := by
        simp only [listHitGo]
        rw [hcq ⟨m, closest⟩, if_neg hq]
      obtain ⟨ihn, ihs⟩ := ih temp closest hcrest htemp
      constructor
      · intro h
        rw [hstep] at h
        obtain ⟨h1, h2⟩ := ihn h
        refine ⟨h1, ?_⟩
        intro p hp
        rcases List.mem_cons.mp hp with rfl | hp'
        · exact hq
        · exact h2 p hp'
      · intro res h
        rw [hstep] at h
        obtain ⟨hle, horig, hmin⟩ := ihs res h
        refine ⟨hle, ?_, ?_⟩
        · rcases horig with h' | ⟨p, hp, hhit, heq⟩
          · exact Or.inl h'
          · exact Or.inr ⟨p, List.mem_cons_of_mem q hp, hhit, heq⟩
        · intro p hp hhit
          rcases List.mem_cons.mp hp with rfl | hp'
          · exact absurd hhit hq
          · exact hmin p hp' hhit

/-- Cached box of a leaf node. -/
theorem BVHTree.bbox_leaf {M : Type} (p : HitP M) (bb : AABB) :
    (BVHTree.leaf p bb).bbox = bb := rfl

/-- Cached box of a branch node. -/
theorem BVHTree.bbox_branch {M : Type} (l r : BVHTree M) (bb : AABB) :
    (BVHTree.branch l r bb).bbox = bb := rfl

/-- Soundness of pruning: when a well-built node's cached box rejects the
ray, no leaf primitive of that node hits the interval. -/
theorem built_prune {M : Type} (r : Ray) (fhits flo fhi : HitP M → Bool)
    (frec : HitP M → HitRecord M) {bti : Interval} {t : BVHTree M}
    (hb : BuiltB bti t)
    (hsound : ∀ p ∈ t.leaves, SoundOK r fhits flo fhi frec bti p)
    (ti : Interval) (hf : AABB.hit t.bbox r ti = false) :
    ∀ p ∈ t.leaves, ¬ HitsAt fhits flo fhi frec ti p := by
  intro p hp hhit
  obtain ⟨bb, hbb, hin⟩ := built_leaf_box hb p hp
  have h1 := hsound p hp bb hbb ti hhit
  have h2 := AABB.hit_mono hin r ti h1
  rw [hf] at h2
  exact Bool.false_ne_true h2

/-- Characterization of `BVH::hit` on a well-built tree with characterized,
bbox-sound leaf primitives: a `none` result means no leaf hits the query
interval, and a `some` result is the record of a hitting leaf with minimal
`t` among all hitting leaves. -/
theorem bvhHit_spec {M : Type} (r : Ray) (fhits flo fhi : HitP M → Bool)
    (frec : HitP M → HitRecord M) {bti : Interval} :
    ∀ {t : BVHTree M}, BuiltB bti t →
      (∀ p ∈ t.leaves, CharOK r fhits flo fhi frec p) →
      (∀ p ∈ t.leaves, SoundOK r fhits flo fhi frec bti p) →
      ∀ ti : Interval,
        (BVH.hit t r ti = none → ∀ p ∈ t.leaves, ¬ HitsAt fhits flo fhi frec ti p) ∧
        (∀ res, BVH.hit t r ti = some res →
          (∃ p ∈ t.leaves, HitsAt fhits flo fhi frec ti p ∧ res = frec p) ∧
          (∀ p ∈ t.leaves, HitsAt fhits flo fhi frec ti p → res.t ≤ (frec p).t)) := by
  intro t hb
  induction hb with
  | leaf q bb hbb =>
    intro hchar hsound ti
    have hqchar := hchar q (by simp [BVHTree.leaves])
    cases hbt : AABB.hit bb r ti with
    | false =>
      have hnone : BVH.hit (BVHTree.leaf q bb) r ti = none := by
        rw [BVH.hit]
        simp only [BVHTree.bbox_leaf, hbt]
        rfl
      constructor
      · intro _
        exact built_prune r fhits flo fhi frec (BuiltB.leaf q bb hbb) hsound ti
          (by simpa [BVHTree.bbox_leaf] using hbt)
      · intro res h
        rw [hnone] at h
        exact absurd h (by simp)
    | true =>
      have hstep : BVH.hit (BVHTree.leaf q bb) r ti = q.hitF r ti := by
        rw [BVH.hit]
        simp only [BVHTree.bbox_leaf, hbt]
        rfl
      rw [hqchar ti] at hstep
      by_cases hq : fhits q = true ∧ memT (flo q) (fhi q) ti (frec q).t
      · rw [if_pos hq] at hstep
        constructor
        · intro h
          rw [hstep] at h
          exact absurd h (by simp)
        · intro res h
          rw [hstep] at h
          have hres : res = frec q := (Option.some.inj h).symm
          constructor
          · exact ⟨q, by simp [BVHTree.leaves], hq, hres⟩
          · intro p hp hhit
            simp only [BVHTree.leaves, List.mem_singleton] at hp
            subst hp
            exact le_of_eq (by rw [hres])
      · rw [if_neg hq] at hstep
        constructor
        · intro _ p hp
          simp only [BVHTree.leaves, List.mem_singleton] at hp
          subst hp
          exact hq
        · intro res h
          rw [hstep] at h
          exact absurd h (by simp)
  | branch lt rt hbL hbR ihL ihR =>
    intro hchar hsound ti
    have hcharL : ∀ p ∈ lt.leaves, CharOK r fhits flo fhi frec p :=
      fun p hp => hchar p (by simp [BVHTree.leaves, List.mem_append, hp])
    have hcharR : ∀ p ∈ rt.leaves, CharOK r fhits flo fhi frec p :=
      fun p hp => hchar p (by simp [BVHTree.leaves, List.mem_append, hp])
    have hsoundL : ∀ p ∈ lt.leaves, SoundOK r fhits flo fhi frec bti p :=
      fun p hp => hsound p (by simp [BVHTree.leaves, List.mem_append, hp])
    have hsoundR : ∀ p ∈ rt.leaves, SoundOK r fhits flo fhi frec bti p :=
      fun p hp => hsound p (by simp [BVHTree.leaves, List.mem_append, hp])
    cases hbox : AABB.hit (surroundingBox lt.bbox rt.bbox) r ti with
    | false =>
      have hnone : BVH.hit (BVHTree.branch lt rt (surroundingBox lt.bbox rt.bbox)) r ti
          = none := by
        rw [BVH.hit]
        simp only [BVHTree.bbox_branch, hbox]
        rfl
      constructor
      · intro _
        exact built_prune r fhits flo fhi frec (BuiltB.branch lt rt hbL hbR) hsound ti
          (by simpa [BVHTree.bbox_branch] using hbox)
      · intro res h
        rw [hnone] at h
        exact absurd h (by simp)
    | true =>
      cases hL : BVH.hit lt r ti with
      | none =>
        have hstep : BVH.hit (BVHTree.branch lt rt (surroundingBox lt.bbox rt.bbox)) r ti
            = BVH.hit rt r ti := by
          rw [BVH.hit]
          simp only [BVHTree.bbox_branch, hbox, if_true, hL]
        have hmissL := (ihL hcharL hsoundL ti).1 hL
        constructor
        · intro h
          rw [hstep] at h
          have hmissR := (ihR hcharR hsoundR ti).1 h
          intro p hp
          simp only [BVHTree.leaves, List.mem_append] at hp
          rcases hp with hp | hp
          · exact hmissL p hp
          · exact hmissR p hp
        · intro res h
          rw [hstep] at h
          obtain ⟨⟨pR, hpR, hhitR, heqR⟩, hminR⟩ := (ihR hcharR hsoundR ti).2 res h
          constructor
          · exact ⟨pR, by simp [BVHTree.leaves, List.mem_append, hpR], hhitR, heqR⟩
          · intro p hp hhit
            simp only [BVHTree.leaves, List.mem_append] at hp
            rcases hp with hp | hp
            · exact absurd hhit (hmissL p hp)
            · exact hminR p hp hhit
      | some lrec =>
        obtain ⟨⟨pL, hpL, hhitL, heqL⟩, hminL⟩ := (ihL hcharL hsoundL ti).2 lrec hL
        have hlt_max : lrec.t ≤ ti.max := by
          rw [heqL]
          exact memT_le_max hhitL.2
        cases hR : BVH.hit rt r ⟨ti.min, lrec.t⟩ with
        | none =>
          have hstep : BVH.hit (BVHTree.branch lt rt (surroundingBox lt.bbox rt.bbox)) r ti
              = some lrec := by
            rw [BVH.hit]
            simp only [BVHTree.bbox_branch, hbox, if_true, hL, hR]
          have hmissR := (ihR hcharR hsoundR ⟨ti.min, lrec.t⟩).1 hR
          constructor
          · intro h
            rw [hstep] at h
            exact absurd h (by simp)
          · intro res h
            rw [hstep] at h
            have hres : res = lrec := (Option.some.inj h).symm
            subst hres
            constructor
            · exact ⟨pL, by simp [BVHTree.leaves, List.mem_append, hpL], hhitL, heqL⟩
            · intro p hp hhit
              simp only [BVHTree.leaves, List.mem_append] at hp
              rcases hp with hp | hp
              · exact hminL p hp hhit
              · exact memT_lower hhit.2 (fun hmm => hmissR p hp ⟨hhit.1, hmm⟩)
        | some rres =>
          obtain ⟨⟨pR, hpR, hhitR, heqR⟩, hminR⟩ :=
            (ihR hcharR hsoundR ⟨ti.min, lrec.t⟩).2 rres hR
          have hrle : rres.t ≤ lrec.t := by
            rw [heqR]
            exact memT_le_max hhitR.2
          have hstep : BVH.hit (BVHTree.branch lt rt (surroundingBox lt.bbox rt.bbox)) r ti
              = some rres := by
            rw [BVH.hit]
            simp only [BVHTree.bbox_branch, hbox, if_true, hL, hR]
            rw [if_neg (not_lt.mpr hrle)]
          constructor
          · intro h
            rw [hstep] at h
            exact absurd h (by simp)
          · intro res h
            rw [hstep] at h
            have hres : res = rres := (Option.some.inj h).symm
            subst hres
            constructor
            · refine ⟨pR, by simp [BVHTree.leaves, List.mem_append, hpR],
                ⟨hhitR.1, ?_⟩, heqR⟩
              exact @memT_mono_max (flo pR) (fhi pR) ⟨ti.min, lrec.t⟩ (frec pR).t
                ti.max hhitR.2 hlt_max
            · intro p hp hhit
              simp only [BVHTree.leaves, List.mem_append] at hp
              rcases hp with hp | hp
              · exact le_trans hrle (hminL p hp hhit)
              · by_cases hh' : HitsAt fhits flo fhi frec ⟨ti.min, lrec.t⟩ p
                · exact hminR p hp hh'
                · exact le_trans hrle
                    (memT_lower hhit.2 (fun hmm => hh' ⟨hhit.1, hmm⟩))

/-- C1, counterexample. Two unit spheres tangent to the `z` axis (centers
`(1,0,2)` and `(0,1,2)`), both hit by the ray from the origin along `+z` at
exactly `t = 2` and at the same point `(0,0,2)`. The linear scan keeps the
first sphere in list order (the second cannot strictly beat `t = 2`), with
normal `(-1,0,0)`; `BVH::new` sorts the spheres by bbox `min+max` on axis 0,
which swaps them, so `BVH::hit` returns the other sphere's record, with
normal `(0,-1,0)`: the returned normals differ, refuting the claim that the
BVH returns a hit with the same normal as the scan. -/
theorem c1_counterexample :
    (HittableList.hit c1Prims c1Ray c1Query).map (fun rec => rec.normal) =
      some ⟨-1, 0, 0⟩ ∧
    (BVH.new c1Prims c1Build).map
      (fun tr => (BVH.hit tr c1Ray c1Query).map (fun rec => rec.normal)) =
      some (some ⟨0, -1, 0⟩) ∧
    (HittableList.hit c1Prims c1Ray c1Query).map (fun rec => (rec.t, rec.p)) =
      some (2, ⟨0, 0, 2⟩) ∧
    (BVH.new c1Prims c1Build).map
      (fun tr => (BVH.hit tr c1Ray c1Query).map (fun rec => (rec.t, rec.p))) =
      some (some (2, ⟨0, 0, 2⟩)) := by
  refine ⟨by decide, by decide, by decide, by decide⟩

/-- C1, as amended: for every ray, query interval and non-empty primitive
list — each primitive reporting a fixed record exactly when its `t` lies in
the queried interval (per-primitive open/closed endpoints, `CharOK`), with
the hit point being the ray evaluated at `t`, and with a bounding box that
passes the slab test on every interval the primitive hits (`SoundOK`) —
`BVH::hit` over the tree built by `BVH::new` and the linear scan
`HittableList::hit` return hits with the same `t` and the same hit point,
and return `None` exactly together. (The returned normal can differ when
two primitives tie at the minimal `t`; see the counterexample.) -/
theorem c1_amended {M : Type} (l : List (HitP M)) (r : Ray) (ti bti : Interval)
    (tr : BVHTree M) (fhits flo fhi : HitP M → Bool) (frec : HitP M → HitRecord M)
    (hbuild : BVH.new l bti = some tr)
    (hchar : ∀ p ∈ l, CharOK r fhits flo fhi frec p)
    (hpt : ∀ p ∈ l, (frec p).p = Ray.at r (frec p).t)
    (hsound : ∀ p ∈ l, SoundOK r fhits flo fhi frec bti p) :
    (BVH.hit tr r ti).map (fun rec => rec.t) =
      (HittableList.hit l r ti).map (fun rec => rec.t) ∧
    (BVH.hit tr r ti).map (fun rec => rec.p) =
      (HittableList.hit l r ti).map (fun rec => rec.p) ∧
    (BVH.hit tr r ti = none ↔ HittableList.hit l r ti = none) := by
  obtain ⟨hb, hperm⟩ := bvhNewGo_ok l.length l tr hbuild
  have hmem : ∀ p : HitP M, p ∈ tr.leaves ↔ p ∈ l := fun p => hperm.mem_iff
  have hcharL : ∀ p ∈ tr.leaves, CharOK r fhits flo fhi frec p :=
    fun p hp => hchar p ((hmem p).mp hp)
  have hsoundL : ∀ p ∈ tr.leaves, SoundOK r fhits flo fhi frec bti p :=
    fun p hp => hsound p ((hmem p).mp hp)
  obtain ⟨lsn, lss⟩ := listHitGo_spec r fhits flo fhi frec ti.min l none ti.max
    hchar (by simp)
  obtain ⟨bsn, bss⟩ := bvhHit_spec r fhits flo fhi frec hb hcharL hsoundL ti
  have hLdef : HittableList.hit l r ti = listHitGo r ti.min l none ti.max := rfl
  cases hLh : HittableList.hit l r ti with
  | none =>
    rw [hLdef] at hLh
    have hmiss := (lsn hLh).2
    have hBnone : BVH.hit tr r ti = none := by
      cases hBh : BVH.hit tr r ti with
      | none => rfl
      | some res =>
        obtain ⟨⟨p, hp, hhit, _⟩, _⟩ := bss res hBh
        exact absurd hhit (hmiss p ((hmem p).mp hp))
    rw [hBnone]
    exact ⟨rfl, rfl, by simp [hLdef, hLh]⟩
  | some lres =>
    have hLh' : listHitGo r ti.min l none ti.max = some lres := by rw [← hLdef, hLh]
    obtain ⟨_, horig, hminL⟩ := lss lres hLh'
    rcases horig with habs | ⟨pl, hpl, hhitl, heql⟩
    · exact absurd habs (by simp)
    cases hBh : BVH.hit tr r ti with
    | none =>
      exact absurd hhitl (bsn hBh pl ((hmem pl).mpr hpl))
    | some bres =>
      obtain ⟨⟨pb, hpb, hhitb, heqb⟩, hminB⟩ := bss bres hBh
      have ht1 : bres.t ≤ lres.t := by
        rw [heql]
        exact hminB pl ((hmem pl).mpr hpl) hhitl
      have ht2 : lres.t ≤ bres.t := by
        rw [heqb]
        exact hminL pb ((hmem pb).mp hpb) hhitb
      have htt : bres.t = lres.t := le_antisymm ht1 ht2
      have hpp : bres.p = lres.p := by
        rw [heqb, heql, hpt pb ((hmem pb).mp hpb), hpt pl hpl]
        rw [← heqb, ← heql, htt]
      exact ⟨by simp [htt], by simp [hpp], by simp⟩

/-- The witness box `wBox` passes the slab test (for the witness ray from
the origin along `+z`) on every interval strictly surrounding `t = 5`. -/
theorem wBox_sound (I : Interval) (h1 : I.min < 5) (h2 : 5 < I.max) :
    AABB.hit wBox wRay I = true := by
  have e1 : FQ.inv 0 = .pinf := by simp [FQ.inv]
  have e2 : FQ.inv 1 = .fin 1 := by norm_num [FQ.inv, FQ.ofQ, FMAX, FMIN]
  simp only [AABB.hit, wBox, wRay, slabGo, slabStep, e1, e2]
  norm_num [FQ.mulQ, FQ.ofQ, FQ.ltb, FQ.leb, FQ.fmax, FQ.fmin, FMAX, FMIN]
  all_goals
    first
    | exact ⟨by linarith, by linarith⟩
    | (refine ⟨by linarith, ?_⟩
       split_ifs <;> simp only [decide_eq_false_iff_not, not_le] <;> linarith)

/-- Witness for `c1_amended` on a single artificial primitive with a fixed
record at `t = 5` and a sound bounding box. -/
theorem c1_witness :
    (BVH.hit (BVHTree.leaf wPrim wBox) wRay c1Query).map (fun rec => rec.t) =
      (HittableList.hit [wPrim] wRay c1Query).map (fun rec => rec.t) ∧
    (BVH.hit (BVHTree.leaf wPrim wBox) wRay c1Query).map (fun rec => rec.p) =
      (HittableList.hit [wPrim] wRay c1Query).map (fun rec => rec.p) ∧
    (BVH.hit (BVHTree.leaf wPrim wBox) wRay c1Query = none ↔
      HittableList.hit [wPrim] wRay c1Query = none) := by
  refine c1_amended [wPrim] wRay c1Query c1Build (BVHTree.leaf wPrim wBox)
    (fun _ => true) (fun _ => true) (fun _ => true) (fun _ => wRec)
    rfl ?_ ?_ ?_
  · intro p hp I
    simp only [List.mem_singleton] at hp
    subst hp
    rfl
  · intro p hp
    simp only [List.mem_singleton] at hp
    subst hp
    decide
  · intro p hp bb hbb I hhit
    simp only [List.mem_singleton] at hp
    subst hp
    have hbbw : bb = wBox := by
      simpa [wPrim] using hbb.symm
    subst hbbw
    exact wBox_sound I hhit.2.1 hhit.2.2

end RTNW
